import Mathlib

/-!
Shallow embedding of the core of the `memory-rag` repository
(`src/stores/in-memory.ts`, `src/services/store-manager.ts`,
`src/services/rag-service.ts`) and proofs about it.

Modelling conventions:
* JavaScript numbers appearing in embeddings and scores are modelled as `ℚ`.
  `Math.sqrt` is an external library function and is modelled as an explicit
  parameter `rt : ℚ → ℚ`; the property a genuine square root satisfies that the
  proofs need (`rt x = 0 ↔ x = 0` on nonnegative input) is a hypothesis.
* JavaScript division `x / y` is partial: for `y = 0` it produces `NaN` or
  `±Infinity`, which are not numbers of the model; `jsDiv` returns `Option ℚ`,
  with `none` standing for such an undefined value.
* Asynchronous provider calls (`createEmbedding`, `generateText`) are modelled
  as explicit function parameters returning `Except String α`, where an
  `Except.error msg` models a rejected promise carrying an `Error` with that
  message.
* `Map` objects are modelled as insertion-ordered association lists
  (JavaScript `Map` preserves insertion order); `Map.set`, `Map.get`,
  `Map.delete` become `mapSet`, `mapGet`, `mapDelete`.
* Generated document ids (`doc_${Date.now()}_${random}`) and `Date.now()`
  timestamps are oracle values; they are passed as explicit arguments
  (`id`, `ts`) or produced by a supplied generator `genId : ℕ → String`.
* Mutation of `this` is modelled by state passing: a mutating method takes the
  store and returns the pair (result, updated store).
-/

/-- A JavaScript metadata value (the open string-keyed metadata object holds
scalar values: strings or numbers). -/
inductive MetaVal where
  | str (s : String)
  | num (q : ℚ)
deriving DecidableEq, Repr

/-- A metadata object: insertion-ordered association list of key/value pairs
with unique keys. -/
abbrev Metadata := List (String × MetaVal)

/-- Object spread override: `{...m, k: v}` — replace the value at key `k` in
place if present (JavaScript objects keep the original position of an
overridden key), otherwise append the new key. -/
def metaSet : Metadata → String → MetaVal → Metadata
  | [], k, v => [(k, v)]
  | kv :: rest, k, v =>
      if kv.1 = k then (k, v) :: rest else kv :: metaSet rest k v

/-- Property read `m[k]` on a metadata object. -/
def metaGet (m : Metadata) (k : String) : Option MetaVal :=
  Option.map Prod.snd (List.find? (fun kv => kv.1 == k) m)

/-- A stored document (interface `Document` of `src/types`), timestamps as
naturals. -/
structure Document where
  id : String
  content : String
  embedding : List ℚ
  metadata : Metadata
  timestamp : ℕ
deriving DecidableEq, Repr

/-- The private state of an `InMemoryVectorStore`: the `documents` map and the
parallel `index` arrays. -/
structure InMemoryVectorStore where
  documents : List (String × Document)
  indexEmbeddings : List (List ℚ)
  indexIds : List String
deriving DecidableEq, Repr

/-- A freshly constructed store. -/
def emptyStore : InMemoryVectorStore := ⟨[], [], []⟩

/-- `Map.get k`. -/
def mapGet (l : List (String × Document)) (k : String) : Option Document :=
  Option.map Prod.snd (List.find? (fun kv => kv.1 == k) l)

/-- `Map.set k v`: overwrite in place when the key exists (a `Map` keeps the
original position of an overwritten key), else append. -/
def mapSet : List (String × Document) → String → Document →
    List (String × Document)
  | [], k, v => [(k, v)]
  | kv :: rest, k, v =>
      if kv.1 = k then (k, v) :: rest else kv :: mapSet rest k v

/-- `Map.delete k`: remove the (unique) entry with key `k`, if any. -/
def mapDelete (l : List (String × Document)) (k : String) :
    List (String × Document) :=
  List.eraseP (fun kv => kv.1 == k) l

namespace InMemoryVectorStore

/-- `InMemoryVectorStore.addDocument`: embed the content, then append the new
document to the map and both index arrays.  `embed` models
`this.embeddingProvider.createEmbedding`; `id` and `ts` are the generated id
and `Date.now()` timestamp.  The awaited embedding call happens before any
mutation, so a rejection leaves the store untouched. -/
def addDocument (embed : String → Except String (List ℚ)) (id : String)
    (ts : ℕ) (s : InMemoryVectorStore) (content : String)
    (metadata : Metadata) : Except String String × InMemoryVectorStore :=
  match embed content with
  | Except.error e => (Except.error e, s)
  | Except.ok embedding =>
      (Except.ok id,
        { documents := mapSet s.documents id
            ⟨id, content, embedding, metadata, ts⟩,
          indexEmbeddings := s.indexEmbeddings ++ [embedding],
          indexIds := s.indexIds ++ [id] })

/-- `InMemoryVectorStore.removeDocumentSync` (and `removeDocument`, which just
wraps it in a resolved promise): delete from the map, then splice both index
arrays at `indexOf id`. -/
def removeDocumentSync (s : InMemoryVectorStore) (id : String) :
    Bool × InMemoryVectorStore :=
  match mapGet s.documents id with
  | none => (false, s)
  | some _ =>
      let docs := mapDelete s.documents id
      if id ∈ s.indexIds then
        let p := List.indexOf id s.indexIds
        (true,
          { documents := docs,
            indexEmbeddings := List.eraseIdx s.indexEmbeddings p,
            indexIds := List.eraseIdx s.indexIds p })
      else (true, { s with documents := docs })

/-- `InMemoryVectorStore.clear`. -/
def clear (_s : InMemoryVectorStore) : InMemoryVectorStore := emptyStore

/-- `InMemoryVectorStore.size` (`this.documents.size`). -/
def size (s : InMemoryVectorStore) : ℕ := s.documents.length

/-- `InMemoryVectorStore.hasDocument`. -/
def hasDocument (s : InMemoryVectorStore) (id : String) : Bool :=
  (mapGet s.documents id).isSome

end InMemoryVectorStore

/-- `StoreStats` (interface of `src/types`). -/
structure StoreStats where
  documentCount : ℕ
  totalSize : ℕ
  oldestDocument : Option ℕ
  newestDocument : Option ℕ
deriving DecidableEq, Repr

/-- Fold computing the minimum of a list of timestamps (`Math.min(...)`). -/
def tsMin (l : List ℕ) : Option ℕ :=
  List.foldl (fun acc t => match acc with
    | none => some t
    | some m => some (Nat.min m t)) none l

/-- Fold computing the maximum of a list of timestamps (`Math.max(...)`). -/
def tsMax (l : List ℕ) : Option ℕ :=
  List.foldl (fun acc t => match acc with
    | none => some t
    | some m => some (Nat.max m t)) none l

/-- `InMemoryVectorStore.getStats`: document count, total UTF-8 byte size of
contents (`new Blob([content]).size`), oldest/newest timestamps (null when
empty). -/
def InMemoryVectorStore.getStats (s : InMemoryVectorStore) : StoreStats :=
  { documentCount := s.documents.length,
    totalSize := List.foldl
      (fun sum kv => sum + String.utf8ByteSize kv.2.content) 0 s.documents,
    oldestDocument := tsMin (s.documents.map fun kv => kv.2.timestamp),
    newestDocument := tsMax (s.documents.map fun kv => kv.2.timestamp) }

/-- `cosineSimilarity` numerator:
`a.reduce((sum, val, i) => sum + val * (b[i] ?? 0), 0)`. -/
def dotProduct (a b : List ℚ) : ℚ :=
  List.foldl (fun acc iv => acc + iv.2 * List.getD b iv.1 0) (0 : ℚ) a.enum

/-- Squared Euclidean norm:
`a.reduce((sum, val) => sum + val * val, 0)` (the argument of `Math.sqrt`). -/
def normSq (a : List ℚ) : ℚ :=
  List.foldl (fun acc v => acc + v * v) (0 : ℚ) a

/-- JavaScript division on the number model: defined (a rational) when the
divisor is nonzero, `none` (meaning `NaN` or `±Infinity`) when the divisor is
zero. -/
def jsDiv (x y : ℚ) : Option ℚ := if y = 0 then none else some (x / y)

/-- `InMemoryVectorStore.cosineSimilarity`, value-precise model:
`dotProduct / (normA * normB)` with `normA = Math.sqrt(...)` abstracted as
`rt`.  Returns `none` exactly when the product of the magnitudes is zero (the
code has no zero-magnitude guard, so JavaScript produces `NaN` there). -/
def cosineSimilarityJS (rt : ℚ → ℚ) (a b : List ℚ) : Option ℚ :=
  jsDiv (dotProduct a b) (rt (normSq a) * rt (normSq b))

/-- The rational value of `cosineSimilarity` in the non-degenerate case, used
as the score function inside `search` (Lean's total `/` agrees with the
JavaScript result whenever the divisor is nonzero). -/
def cosineSimilarityVal (rt : ℚ → ℚ) (a b : List ℚ) : ℚ :=
  dotProduct a b / (rt (normSq a) * rt (normSq b))

/-- Specification of a square-root model: nonnegative inputs map to
nonnegative outputs and the root vanishes exactly at zero (true of
`Math.sqrt` on nonnegative arguments). -/
def SqrtModel (rt : ℚ → ℚ) : Prop :=
  ∀ x : ℚ, 0 ≤ x → (0 ≤ rt x ∧ (rt x = 0 ↔ x = 0))

/-- A sample square-root model used to instantiate closed statements. -/
def rtSample (x : ℚ) : ℚ := if x ≤ 0 then 0 else 1

/-- Search result entry (interface `SearchResult`): id, content, score and
metadata — the structure has no embedding field, matching the object literal
built by `search`. -/
structure SearchResult where
  id : String
  content : String
  score : ℚ
  metadata : Metadata
deriving DecidableEq, Repr

/-- The `scores` array construction inside `search`:
`this.index.embeddings.map((embedding, index) => ...)`, reading
`this.index.ids[index]` and throwing when that id is missing (`undefined`) or
falsy (the empty string). -/
def mkScores (sim : List ℚ → List ℚ → ℚ) (qe : List ℚ) :
    List (List ℚ) → List String → ℕ → Except String (List (String × ℚ))
  | [], _, _ => Except.ok []
  | _ :: _, [], i => Except.error ("Missing ID at index " ++ toString i)
  | e :: es, id :: ids, i =>
      if id = "" then Except.error ("Missing ID at index " ++ toString i)
      else
        match mkScores sim qe es ids (i + 1) with
        | Except.error msg => Except.error msg
        | Except.ok rest => Except.ok ((id, sim qe e) :: rest)

/-- The comparator `(a, b) => b.score - a.score` as a stable-sort order:
`a` may precede `b` iff the comparator is `≤ 0`, i.e. `b.score ≤ a.score`. -/
def scoreLE (a b : String × ℚ) : Bool := decide (b.2 ≤ a.2)

/-- Projection of the top results through the documents map
(`topResults.map(result => ...)`), throwing when an id has no document. -/
def projectResults (s : InMemoryVectorStore) :
    List (String × ℚ) → Except String (List SearchResult)
  | [] => Except.ok []
  | r :: rs =>
      match mapGet s.documents r.1 with
      | none => Except.error ("Document not found for ID: " ++ r.1)
      | some doc =>
          match projectResults s rs with
          | Except.error msg => Except.error msg
          | Except.ok rest =>
              Except.ok (⟨doc.id, doc.content, r.2, doc.metadata⟩ :: rest)

/-- `InMemoryVectorStore.search`: empty-store short circuit, embed the query,
score every indexed embedding with `cosineSimilarity` (passed as `sim`), sort
descending by score with the stable `Array.prototype.sort`, take the first
`topK`, and project through the documents map. -/
def InMemoryVectorStore.search (embed : String → Except String (List ℚ))
    (sim : List ℚ → List ℚ → ℚ) (s : InMemoryVectorStore) (query : String)
    (topK : ℕ) : Except String (List SearchResult) :=
  if s.size = 0 then Except.ok []
  else
    match embed query with
    | Except.error e => Except.error e
    | Except.ok qe =>
        match mkScores sim qe s.indexEmbeddings s.indexIds 0 with
        | Except.error msg => Except.error msg
        | Except.ok scores =>
            projectResults s (List.take topK (scores.mergeSort scoreLE))


/-- State of the `store-manager` module: the object heap assigns store
contents to allocated store references (object identities), `nextRef` is the
allocator counter, `globalStore` is the module-level global, and
`sessionStores` models the `Map` of session stores. -/
structure RegState where
  heap : List (ℕ × InMemoryVectorStore)
  nextRef : ℕ
  globalStore : Option ℕ
  sessionStores : List (String × ℕ)
deriving DecidableEq, Repr

/-- The module state at load time. -/
def emptyReg : RegState := ⟨[], 0, none, []⟩

/-- Heap lookup for a store reference. -/
def heapGet (h : List (ℕ × InMemoryVectorStore)) (r : ℕ) :
    Option InMemoryVectorStore :=
  Option.map Prod.snd (List.find? (fun kv => kv.1 == r) h)

/-- Heap update for a store reference (in-place object mutation). -/
def heapSet : List (ℕ × InMemoryVectorStore) → ℕ → InMemoryVectorStore →
    List (ℕ × InMemoryVectorStore)
  | [], _, _ => []
  | kv :: rest, r, v =>
      if kv.1 = r then (r, v) :: heapSet rest r v
      else kv :: heapSet rest r v

/-- Session-map lookup. -/
def sessGet (m : List (String × ℕ)) (k : String) : Option ℕ :=
  Option.map Prod.snd (List.find? (fun kv => kv.1 == k) m)

/-- Allocate a new `InMemoryVectorStore` object (`new InMemoryVectorStore`). -/
def allocStore (st : RegState) : ℕ × RegState :=
  (st.nextRef,
    { st with heap := st.heap ++ [(st.nextRef, emptyStore)],
              nextRef := st.nextRef + 1 })

/-- The global branch of `getStore`: return the module-level global store,
constructing it lazily. -/
def getStoreGlobal (st : RegState) : ℕ × RegState :=
  match st.globalStore with
  | some r => (r, st)
  | none =>
      ((allocStore st).1,
        { (allocStore st).2 with globalStore := some (allocStore st).1 })

/-- The session branch of `getStore`: return the registered store for the
id, constructing and registering it on first access. -/
def getStoreSession (st : RegState) (sid : String) : ℕ × RegState :=
  match sessGet st.sessionStores sid with
  | some r => (r, st)
  | none =>
      ((allocStore st).1,
        { (allocStore st).2 with
            sessionStores := (allocStore st).2.sessionStores ++
              [(sid, (allocStore st).1)] })

/-- `getStore(sessionId?)`: an absent id, the empty string (falsy) or
`'global'` selects the lazily created module-level global store; any other id
selects the session store, creating and registering it on first access.  The
embedding-provider argument only configures a newly constructed store and is
dropped here. -/
def getStore (st : RegState) (sessionId : Option String) : ℕ × RegState :=
  match sessionId with
  | none => getStoreGlobal st
  | some sid =>
      if sid = "" ∨ sid = "global" then getStoreGlobal st
      else getStoreSession st sid

/-- `getSessionCount()`: `sessionStores.size + 1`. -/
def getSessionCount (st : RegState) : ℕ := st.sessionStores.length + 1

/-- `clearSession(sessionId)`: for `'global'`, clear the global store's
contents in place (if constructed) and return true; otherwise clear and evict
a registered session store (true), or return false for an unknown id. -/
def clearSession (st : RegState) (sessionId : String) : Bool × RegState :=
  if sessionId = "global" then
    match st.globalStore with
    | some r => (true, { st with heap := heapSet st.heap r emptyStore })
    | none => (true, st)
  else
    match sessGet st.sessionStores sessionId with
    | some r =>
        (true,
          { st with heap := heapSet st.heap r emptyStore,
                    sessionStores :=
                      List.eraseP (fun kv => kv.1 == sessionId)
                        st.sessionStores })
    | none => (false, st)

/-- `clearAllSessions()`: clear every session store in place, empty the
session map, then clear the global store and detach it (`globalStore = null`). -/
def clearAllSessions (st : RegState) : RegState :=
  let h1 := List.foldl (fun h kv => heapSet h kv.2 emptyStore) st.heap
    st.sessionStores
  let h2 := match st.globalStore with
    | some r => heapSet h1 r emptyStore
    | none => h1
  { heap := h2, nextRef := st.nextRef, globalStore := none,
    sessionStores := [] }

/-- Well-formedness of the registry state: every live reference is strictly
below the allocator counter and is present in the heap, heap keys and session
keys are unique, the session-store references are pairwise distinct, and the
global reference is not also a session reference. -/
def RegWF (st : RegState) : Prop :=
  (∀ kv ∈ st.heap, kv.1 < st.nextRef) ∧
  (List.map Prod.fst st.heap).Nodup ∧
  (List.map Prod.fst st.sessionStores).Nodup ∧
  (List.map Prod.snd st.sessionStores).Nodup ∧
  (∀ kv ∈ st.sessionStores, kv.1 ≠ "" ∧ kv.1 ≠ "global" ∧
    kv.2 ∈ List.map Prod.fst st.heap) ∧
  (∀ r, st.globalStore = some r →
    r ∈ List.map Prod.fst st.heap ∧ r ∉ List.map Prod.snd st.sessionStores)

/-- A chat message passed to the generation capability. -/
structure Message where
  role : String
  content : String
deriving DecidableEq, Repr

/-- The argument object of `generateText`. -/
structure GenRequest where
  messages : List Message
  temperature : ℚ
  maxTokens : ℕ
deriving DecidableEq, Repr

/-- `RAGSearchResult` envelope.  Optional fields model JavaScript object
fields; `none` stands for an absent field (and, for `answer`, also for an
explicit `null`). -/
structure RAGSearchResult where
  success : Bool
  message : Option String
  results : Option (List SearchResult)
  answer : Option String
  stats : Option StoreStats
deriving DecidableEq, Repr

/-- `AddDocumentResult` envelope. -/
structure AddDocumentResult where
  success : Bool
  documentIds : List String
  message : String
  stats : StoreStats
deriving DecidableEq, Repr

/-- An entry of the `bulkAddDocuments` input list. -/
structure BulkDocument where
  content : String
  metadata : Option Metadata
deriving DecidableEq, Repr

/-- The context block built inside `RAGService.search`:
each result as `[Source i+1]: content`, joined with blank lines. -/
def buildContext (results : List SearchResult) : String :=
  String.intercalate "\n\n"
    (List.map (fun ir => "[Source " ++ toString (ir.1 + 1) ++ "]: " ++
      ir.2.content) results.enum)

/-- The `generateText` request built inside `RAGService.search`. -/
def buildGenRequest (results : List SearchResult) (query : String) :
    GenRequest :=
  { messages :=
      [⟨"system",
        "Use the following context information to answer the question. " ++
        "Answer based on the context provided.\n\nContext:\n" ++
        buildContext results⟩,
       ⟨"user", query⟩],
    temperature := 7 / 10,
    maxTokens := 500 }

/-- The `catch` branch of `RAGService.search`. -/
def searchFailure (e : String) : RAGSearchResult :=
  ⟨false, some ("Error during search: " ++ e), none, none, none⟩

/-- `RAGService.search`: call the store's search, short-circuit on zero
results, optionally generate an answer from the ranked context, and wrap
everything in a result envelope; every rejection inside the `try` block is
converted by the `catch` into a `{success: false, message}` envelope.  `gen`
models `this.llmProvider.generateText`. -/
def RAGService.search (embed : String → Except String (List ℚ))
    (sim : List ℚ → List ℚ → ℚ) (gen : GenRequest → Except String String)
    (s : InMemoryVectorStore) (query : String) (topK : ℕ)
    (generateAnswer : Bool) : RAGSearchResult :=
  match s.search embed sim query topK with
  | Except.error e => searchFailure e
  | Except.ok results =>
      if results.length = 0 then
        ⟨true, some "No documents found", some [], none, none⟩
      else
        if generateAnswer then
          match gen (buildGenRequest results query) with
          | Except.error e => searchFailure e
          | Except.ok ans =>
              ⟨true, none,
                some (results.map fun r => ⟨r.id, r.content, r.score,
                  r.metadata⟩),
                some ans, some s.getStats⟩
        else
          ⟨true, none,
            some (results.map fun r => ⟨r.id, r.content, r.score,
              r.metadata⟩),
            none, some s.getStats⟩

/-- Model of JavaScript `content.split(' ')`: split the character list at
every space, keeping empty fragments (so the result is never `[]`; splitting
the empty string gives `[""]`). -/
def splitWords : List Char → List String
  | [] => [""]
  | c :: cs =>
      match splitWords cs with
      | [] => []
      | w :: ws =>
          if c = ' ' then "" :: w :: ws
          else String.mk (c :: w.data) :: ws

/-- `content.split(' ')` on a string. -/
def splitOnSpace (content : String) : List String := splitWords content.data

/-- The chunking loop of `RAGService.addDocument`
(`for (let i = 0; i < words.length; i += chunkSize)`), modelled by recursion
on the not-yet-consumed suffix `words.drop i`; `i` is the loop counter, `n`
feeds the id generator, and `total` is the precomputed
`Math.ceil(words.length / chunkSize)`.  The JavaScript loop diverges when
`chunkSize = 0`, so the model requires `0 < C`. -/
def addChunksLoop (embed : String → Except String (List ℚ))
    (genId : ℕ → String) (ts : ℕ) (metadata : Metadata) (C : ℕ)
    (hC : 0 < C) (total : ℕ) :
    (ws : List String) → ℕ → ℕ → InMemoryVectorStore →
      Except String (List String) × InMemoryVectorStore × ℕ
  | [], _, n, st => (Except.ok [], st, n)
  | w :: ws, i, n, st =>
      let chunk := String.intercalate " " (List.take C (w :: ws))
      match InMemoryVectorStore.addDocument embed (genId n) ts st chunk
        (metaSet (metaSet metadata "chunkIndex"
          (MetaVal.num ((i / C : ℕ) : ℚ)))
          "totalChunks" (MetaVal.num total)) with
      | (Except.error e, st1) => (Except.error e, st1, n)
      | (Except.ok id, st1) =>
          match addChunksLoop embed genId ts metadata C hC total
            (List.drop C (w :: ws)) (i + C) (n + 1) st1 with
          | (Except.error e, st2, n2) => (Except.error e, st2, n2)
          | (Except.ok ids, st2, n2) => (Except.ok (id :: ids), st2, n2)
  termination_by ws => ws.length
  decreasing_by simp [List.length_drop]; omega

/-- `RAGService.addDocument`: single-document ingestion, or word-count
chunking with `chunkIndex` / `totalChunks` attached to each chunk's metadata.
No `try`/`catch`: a rejected embedding call propagates.  Returns the envelope
(or the propagated error) together with the updated store and id counter. -/
def RAGService.addDocument (embed : String → Except String (List ℚ))
    (genId : ℕ → String) (ts : ℕ) (st : InMemoryVectorStore) (n : ℕ)
    (content : String) (metadata : Metadata) (useChunks : Bool)
    (chunkSize : ℕ) (hC : 0 < chunkSize) :
    Except String AddDocumentResult × InMemoryVectorStore × ℕ :=
  if useChunks then
    let words := splitOnSpace content
    let total := (words.length + chunkSize - 1) / chunkSize
    match addChunksLoop embed genId ts metadata chunkSize hC total words 0 n
      st with
    | (Except.error e, st1, n1) => (Except.error e, st1, n1)
    | (Except.ok ids, st1, n1) =>
        (Except.ok ⟨true, ids,
          "Added " ++ toString ids.length ++ " document(s)", st1.getStats⟩,
          st1, n1)
  else
    match InMemoryVectorStore.addDocument embed (genId n) ts st content
      metadata with
    | (Except.error e, st1) => (Except.error e, st1, n)
    | (Except.ok id, st1) =>
        (Except.ok ⟨true, [id],
          "Added " ++ toString [id].length ++ " document(s)", st1.getStats⟩,
          st1, n + 1)

/-- The iteration of `bulkAddDocuments`: add each entry whose `content` is
truthy (a JavaScript string is falsy exactly when it is empty), skip the
rest; a rejected embedding call propagates. -/
def bulkLoop (embed : String → Except String (List ℚ))
    (genId : ℕ → String) (ts : ℕ) :
    List BulkDocument → ℕ → InMemoryVectorStore →
      Except String (List String) × InMemoryVectorStore × ℕ
  | [], n, st => (Except.ok [], st, n)
  | d :: ds, n, st =>
      if d.content = "" then bulkLoop embed genId ts ds n st
      else
        match InMemoryVectorStore.addDocument embed (genId n) ts st
          d.content (d.metadata.getD []) with
        | (Except.error e, st1) => (Except.error e, st1, n)
        | (Except.ok id, st1) =>
            match bulkLoop embed genId ts ds (n + 1) st1 with
            | (Except.error e, st2, n2) => (Except.error e, st2, n2)
            | (Except.ok ids, st2, n2) => (Except.ok (id :: ids), st2, n2)

/-- `RAGService.bulkAddDocuments`. -/
def RAGService.bulkAddDocuments (embed : String → Except String (List ℚ))
    (genId : ℕ → String) (ts : ℕ) (st : InMemoryVectorStore) (n : ℕ)
    (documents : List BulkDocument) :
    Except String AddDocumentResult × InMemoryVectorStore × ℕ :=
  match bulkLoop embed genId ts documents n st with
  | (Except.error e, st1, n1) => (Except.error e, st1, n1)
  | (Except.ok ids, st1, n1) =>
      (Except.ok ⟨true, ids,
        "Added " ++ toString ids.length ++ " document(s)", st1.getStats⟩,
        st1, n1)

/-- The keys of the documents map, in insertion order. -/
def storeIds (s : InMemoryVectorStore) : List String :=
  s.documents.map Prod.fst

/-- The document/index consistency invariant of an `InMemoryVectorStore`:
the index id array lists the map keys in order, the embeddings array lists
the corresponding embeddings in the same order, keys are unique, and each
document records its own key as `id`. -/
def Consistent (s : InMemoryVectorStore) : Prop :=
  s.indexIds = s.documents.map Prod.fst ∧
  s.indexEmbeddings = s.documents.map (fun kv => kv.2.embedding) ∧
  (s.documents.map Prod.fst).Nodup ∧
  ∀ kv ∈ s.documents, kv.2.id = kv.1

instance (s : InMemoryVectorStore) : Decidable (Consistent s) := by
  unfold Consistent; infer_instance

/-- A completed mutating store operation, with the oracle values (generated
id, timestamp) recorded in the operation. -/
inductive StoreOp where
  | add (id : String) (content : String) (metadata : Metadata) (ts : ℕ)
  | remove (id : String)
  | clearOp
deriving DecidableEq, Repr

/-- The store state after one operation (an add whose embedding call rejects
leaves the state unchanged). -/
def applyOp (embed : String → Except String (List ℚ))
    (s : InMemoryVectorStore) : StoreOp → InMemoryVectorStore
  | StoreOp.add id c md ts =>
      (InMemoryVectorStore.addDocument embed id ts s c md).2
  | StoreOp.remove id => (s.removeDocumentSync id).2
  | StoreOp.clearOp => s.clear

/-- The store state after a sequence of operations. -/
def execOps (embed : String → Except String (List ℚ))
    (s : InMemoryVectorStore) (ops : List StoreOp) : InMemoryVectorStore :=
  List.foldl (applyOp embed) s ops

/-- An operation sequence is admissible when every `add` uses a generated id
that is not currently a key of the store it executes against (the
`doc_${Date.now()}_${random}` ids are collision-free). -/
def admissible (embed : String → Except String (List ℚ))
    (s : InMemoryVectorStore) : List StoreOp → Bool
  | [] => true
  | op :: rest =>
      (match op with
       | StoreOp.add id _ _ _ => !(List.any s.documents fun kv => kv.1 == id)
       | _ => true) && admissible embed (applyOp embed s op) rest

lemma any_key_eq_true_iff (l : List (String × Document)) (k : String) :
    (List.any l fun kv => kv.1 == k) = true ↔ k ∈ l.map Prod.fst := by
  rw [List.any_eq_true]
  constructor
  · rintro ⟨kv, hmem, hk⟩
    simp only [beq_iff_eq] at hk
    exact hk ▸ List.mem_map_of_mem Prod.fst hmem
  · intro h
    rcases List.mem_map.mp h with ⟨kv, hmem, hk⟩
    exact ⟨kv, hmem, by simp [hk]⟩

lemma mapSet_fresh (l : List (String × Document)) (k : String) (v : Document)
    (h : k ∉ l.map Prod.fst) : mapSet l k v = l ++ [(k, v)] := by
  induction l with
  | nil => rfl
  | cons kv rest ih =>
      rw [List.map_cons, List.mem_cons] at h
      push_neg at h
      unfold mapSet
      rw [if_neg (fun he => h.1 he.symm)]
      rw [ih h.2]
      rfl

lemma mapGet_isSome_iff (l : List (String × Document)) (k : String) :
    (mapGet l k).isSome = true ↔ k ∈ l.map Prod.fst := by
  unfold mapGet
  have hmapSome : ∀ o : Option (String × Document),
      (Option.map Prod.snd o).isSome = o.isSome := by
    intro o; cases o <;> rfl
  rw [hmapSome]
  rw [List.find?_isSome]
  constructor
  · rintro ⟨kv, hmem, hk⟩
    simp only [beq_iff_eq] at hk
    exact hk ▸ List.mem_map_of_mem Prod.fst hmem
  · intro h
    rcases List.mem_map.mp h with ⟨kv, hmem, hk⟩
    exact ⟨kv, hmem, by simp [hk]⟩

lemma mapGet_eq_none_iff (l : List (String × Document)) (k : String) :
    mapGet l k = none ↔ k ∉ l.map Prod.fst := by
  rw [← mapGet_isSome_iff]
  cases mapGet l k <;> simp

lemma mapGet_mem (l : List (String × Document)) (k : String) (v : Document)
    (h : mapGet l k = some v) : (k, v) ∈ l := by
  unfold mapGet at h
  cases hf : List.find? (fun kv => kv.1 == k) l with
  | none => rw [hf] at h; cases h
  | some kv =>
      rw [hf] at h
      have hp := List.find?_some hf
      have hm := List.mem_of_find?_eq_some hf
      obtain ⟨a, b⟩ := kv
      simp only [beq_iff_eq] at hp
      rw [show Option.map Prod.snd (some ((a, b) : String × Document)) =
        some b from rfl] at h
      simp only [Option.some.injEq] at h
      subst hp
      rw [show b = v from h] at hm
      exact hm

lemma mapDelete_eq_eraseIdx (l : List (String × Document)) (k : String) :
    mapDelete l k = l.eraseIdx (List.indexOf k (l.map Prod.fst)) := by
  induction l with
  | nil => rfl
  | cons kv rest ih =>
      obtain ⟨a, b⟩ := kv
      by_cases h : a = k
      · subst h
        simp [mapDelete, List.eraseP_cons, List.indexOf_cons_self]
      · have hne : (((a, b) : String × Document).1 == k) = false := by
          simp [h]
        rw [show List.map Prod.fst ((a, b) :: rest) =
          a :: List.map Prod.fst rest from rfl]
        rw [List.indexOf_cons_ne _ h]
        simp only [mapDelete, List.eraseP_cons, hne, cond_false,
          List.eraseIdx_cons_succ, List.cons.injEq, true_and]
        exact ih

lemma map_eraseIdx {α β : Type} (f : α → β) :
    ∀ (l : List α) (i : ℕ), (l.eraseIdx i).map f = (l.map f).eraseIdx i := by
  intro l
  induction l with
  | nil => intro i; rfl
  | cons a rest ih =>
      intro i
      cases i with
      | zero => rfl
      | succ j => simp only [List.eraseIdx_cons_succ, List.map_cons, ih]

lemma mapGet_cons (a : String) (b : Document) (rest : List (String × Document))
    (k : String) :
    mapGet ((a, b) :: rest) k = if a = k then some b else mapGet rest k := by
  by_cases h : a = k
  · unfold mapGet
    rw [List.find?_cons_of_pos _ (by simpa using h)]
    simp [h]
  · unfold mapGet
    rw [List.find?_cons_of_neg _ (by simpa using h)]
    simp [h]

lemma mapGet_position (l : List (String × Document)) (k : String)
    (v : Document) (hnd : (l.map Prod.fst).Nodup)
    (h : mapGet l k = some v) :
    List.indexOf k (l.map Prod.fst) < l.length ∧
    l[List.indexOf k (l.map Prod.fst)]? = some (k, v) := by
  induction l with
  | nil => cases h
  | cons kv rest ih =>
      obtain ⟨a, b⟩ := kv
      rw [mapGet_cons] at h
      by_cases hak : a = k
      · rw [if_pos hak] at h
        simp only [Option.some.injEq] at h
        subst hak; subst h
        simp [List.indexOf_cons_self]
      · rw [if_neg hak] at h
        have hnd2 : (rest.map Prod.fst).Nodup := by
          simpa using hnd.of_cons
        rcases ih hnd2 h with ⟨hlt, hget⟩
        rw [show List.map Prod.fst ((a, b) :: rest) =
          a :: List.map Prod.fst rest from rfl]
        rw [List.indexOf_cons_ne _ hak]
        constructor
        · simpa using Nat.succ_lt_succ hlt
        · simpa using hget

lemma consistent_empty : Consistent emptyStore := by
  constructor <;> simp [emptyStore]

lemma consistent_addDocument (embed : String → Except String (List ℚ))
    (id : String) (ts : ℕ) (s : InMemoryVectorStore) (content : String)
    (md : Metadata) (hC : Consistent s) (hid : id ∉ storeIds s) :
    Consistent (InMemoryVectorStore.addDocument embed id ts s content md).2 := by
  unfold InMemoryVectorStore.addDocument
  cases hemb : embed content with
  | error e => exact hC
  | ok emb =>
      rcases hC with ⟨h1, h2, h3, h4⟩
      have hfresh := mapSet_fresh s.documents id
        ⟨id, content, emb, md, ts⟩ hid
      refine ⟨?_, ?_, ?_, ?_⟩
      · simp only [hfresh, List.map_append, List.map_cons, List.map_nil]
        rw [h1]
      · simp only [hfresh, List.map_append, List.map_cons, List.map_nil]
        rw [h2]
      · simp only [hfresh, List.map_append, List.map_cons, List.map_nil]
        rw [List.nodup_append]
        exact ⟨h3, List.nodup_singleton id, by
          intro a ha hb
          simp only [List.mem_singleton] at hb
          subst hb
          exact hid ha⟩
      · intro kv hkv
        simp only [hfresh, List.mem_append, List.mem_singleton] at hkv
        cases hkv with
        | inl hmem => exact h4 kv hmem
        | inr heq => subst heq; rfl

lemma removeDocumentSync_known (s : InMemoryVectorStore) (id : String)
    (d : Document) (hC : Consistent s)
    (h : mapGet s.documents id = some d) :
    s.removeDocumentSync id =
      (true,
        ⟨s.documents.eraseIdx (List.indexOf id s.indexIds),
         s.indexEmbeddings.eraseIdx (List.indexOf id s.indexIds),
         s.indexIds.eraseIdx (List.indexOf id s.indexIds)⟩) := by
  rcases hC with ⟨h1, _h2, h3, _h4⟩
  have hmemkeys : id ∈ s.documents.map Prod.fst := by
    have := (mapGet_isSome_iff s.documents id).mp (by rw [h]; rfl)
    exact this
  have hmemids : id ∈ s.indexIds := by rw [h1]; exact hmemkeys
  unfold InMemoryVectorStore.removeDocumentSync
  rw [h]
  rw [if_pos hmemids]
  have hdel : mapDelete s.documents id =
      s.documents.eraseIdx (List.indexOf id s.indexIds) := by
    rw [mapDelete_eq_eraseIdx, h1]
  rw [hdel]

lemma consistent_remove (s : InMemoryVectorStore) (id : String)
    (hC : Consistent s) : Consistent (s.removeDocumentSync id).2 := by
  cases hget : mapGet s.documents id with
  | none =>
      unfold InMemoryVectorStore.removeDocumentSync
      rw [hget]
      exact hC
  | some d =>
      rw [removeDocumentSync_known s id d hC hget]
      rcases hC with ⟨h1, h2, h3, h4⟩
      refine ⟨?_, ?_, ?_, ?_⟩
      · simp only [map_eraseIdx]
        rw [h1]
      · simp only [map_eraseIdx]
        rw [h2]
      · exact h3.sublist
          ((map_eraseIdx Prod.fst s.documents _).symm ▸
            (List.eraseIdx_sublist s.documents _).map Prod.fst)
      · intro kv hkv
        exact h4 kv (List.eraseIdx_subset _ _ hkv)

lemma consistent_applyOp (embed : String → Except String (List ℚ))
    (s : InMemoryVectorStore) (op : StoreOp) (hC : Consistent s)
    (hadm : (match op with
      | StoreOp.add id _ _ _ => !(List.any s.documents fun kv => kv.1 == id)
      | _ => true) = true) :
    Consistent (applyOp embed s op) := by
  cases op with
  | add id c md ts =>
      have hid : id ∉ storeIds s := by
        simp only [Bool.not_eq_eq_eq_not, Bool.not_true] at hadm
        exact (any_key_eq_true_iff s.documents id).not.mp (by simp [hadm])
      exact consistent_addDocument embed id ts s c md hC hid
  | remove id => exact consistent_remove s id hC
  | clearOp => exact consistent_empty

lemma consistent_execOps (embed : String → Except String (List ℚ)) :
    ∀ (ops : List StoreOp) (s : InMemoryVectorStore), Consistent s →
      admissible embed s ops = true → Consistent (execOps embed s ops) := by
  intro ops
  induction ops with
  | nil => intro s hC _; exact hC
  | cons op rest ih =>
      intro s hC hadm
      unfold admissible at hadm
      rw [Bool.and_eq_true] at hadm
      exact ih (applyOp embed s op)
        (consistent_applyOp embed s op hC hadm.1) hadm.2

lemma consistent_conclusions (s : InMemoryVectorStore) (hC : Consistent s) :
    (s.indexIds.length = s.indexEmbeddings.length ∧
      s.indexIds.length = s.size) ∧
    (∀ id d, mapGet s.documents id = some d →
      List.count id s.indexIds = 1 ∧
      ∃ p : ℕ, s.indexIds[p]? = some id ∧
        s.indexEmbeddings[p]? = some d.embedding) ∧
    (∀ id, s.hasDocument id = true →
      (s.removeDocumentSync id).2.size + 1 = s.size ∧
      ∃ p : ℕ, s.indexIds[p]? = some id ∧
        (s.removeDocumentSync id).2.indexIds = s.indexIds.eraseIdx p ∧
        (s.removeDocumentSync id).2.indexEmbeddings =
          s.indexEmbeddings.eraseIdx p) := by
  obtain ⟨h1, h2, h3, h4⟩ := hC
  have hlen : s.indexIds.length = s.documents.length := by
    rw [h1, List.length_map]
  refine ⟨⟨?_, ?_⟩, ?_, ?_⟩
  · rw [h1, h2, List.length_map, List.length_map]
  · rw [InMemoryVectorStore.size, hlen]
  · intro id d hget
    have hpos := mapGet_position s.documents id d h3 hget
    have hmemkeys : id ∈ s.documents.map Prod.fst :=
      (mapGet_isSome_iff s.documents id).mp (by rw [hget]; rfl)
    constructor
    · exact List.count_eq_one_of_mem (h1 ▸ h3) (h1 ▸ hmemkeys)
    · refine ⟨List.indexOf id (s.documents.map Prod.fst), ?_, ?_⟩
      · rw [h1, List.getElem?_map, hpos.2]
        rfl
      · rw [h2, List.getElem?_map, hpos.2]
        rfl
  · intro id hhas
    rw [InMemoryVectorStore.hasDocument, Option.isSome_iff_exists] at hhas
    obtain ⟨d, hget⟩ := hhas
    have hrem := removeDocumentSync_known s id d ⟨h1, h2, h3, h4⟩ hget
    have hpos := mapGet_position s.documents id d h3 hget
    have hmemids : id ∈ s.indexIds := by
      rw [h1]
      exact (mapGet_isSome_iff s.documents id).mp (by rw [hget]; rfl)
    have hidx : List.indexOf id s.indexIds =
        List.indexOf id (s.documents.map Prod.fst) := by rw [h1]
    constructor
    · rw [hrem]
      show (s.documents.eraseIdx (List.indexOf id s.indexIds)).length + 1 =
        s.documents.length
      rw [List.length_eraseIdx_of_lt (by rw [hidx]; exact hpos.1)]
      have : 0 < s.documents.length := Nat.lt_of_le_of_lt (Nat.zero_le _)
        hpos.1
      omega
    · refine ⟨List.indexOf id s.indexIds, ?_, ?_, ?_⟩
      · exact List.getElem?_indexOf hmemids
      · rw [hrem]
      · rw [hrem]

/-- The facts claim C1 asserts of a store state: both index arrays have the
same length as the document count; every stored id occurs exactly once in
`index.ids`, with its embedding at the same position in `index.embeddings`;
and removing a known id decrements the size by exactly one and drops the same
logical position from both index arrays. -/
def IndexDocumentFacts (s : InMemoryVectorStore) : Prop :=
  (s.indexIds.length = s.indexEmbeddings.length ∧
    s.indexIds.length = s.size) ∧
  (∀ id d, mapGet s.documents id = some d →
    List.count id s.indexIds = 1 ∧
    ∃ p : ℕ, s.indexIds[p]? = some id ∧
      s.indexEmbeddings[p]? = some d.embedding) ∧
  (∀ id, s.hasDocument id = true →
    (s.removeDocumentSync id).2.size + 1 = s.size ∧
    ∃ p : ℕ, s.indexIds[p]? = some id ∧
      (s.removeDocumentSync id).2.indexIds = s.indexIds.eraseIdx p ∧
      (s.removeDocumentSync id).2.indexEmbeddings =
        s.indexEmbeddings.eraseIdx p)

/-- C1: after any sequence of completed `addDocument` / `removeDocument` /
`clear` operations starting from a fresh store (with collision-free generated
ids), the lengths of `index.ids` and `index.embeddings` both equal the number
of stored documents, every stored id occurs exactly once in `index.ids` with
its embedding at the same position, and `removeDocument` on a known id
shrinks the size by one and both index arrays at the same logical position. -/
theorem store_index_consistency (embed : String → Except String (List ℚ))
    (ops : List StoreOp) (hadm : admissible embed emptyStore ops = true) :
    IndexDocumentFacts (execOps embed emptyStore ops) :=
  consistent_conclusions _
    (consistent_execOps embed ops emptyStore consistent_empty hadm)

/-- Fixed embedding capability used in closed statements: every text embeds
to `[1, 2]`. -/
def embedW : String → Except String (List ℚ) := fun _ => Except.ok [1, 2]

/-- A concrete operation sequence: two adds and a remove of a known id. -/
def c1Ops : List StoreOp :=
  [StoreOp.add "doc_a" "alpha text" [] 0,
   StoreOp.add "doc_b" "beta text" [] 1,
   StoreOp.remove "doc_a"]

theorem store_index_consistency_witness :
    admissible embedW emptyStore c1Ops = true ∧
    IndexDocumentFacts (execOps embedW emptyStore c1Ops) :=
  ⟨by decide, store_index_consistency embedW c1Ops (by decide)⟩

lemma foldl_sq_nonneg (l : List ℚ) :
    ∀ acc : ℚ, 0 ≤ acc → 0 ≤ List.foldl (fun acc v => acc + v * v) acc l := by
  induction l with
  | nil => intro acc h; exact h
  | cons v rest ih =>
      intro acc h
      exact ih (acc + v * v) (add_nonneg h (mul_self_nonneg v))

lemma normSq_nonneg (a : List ℚ) : 0 ≤ normSq a :=
  foldl_sq_nonneg a 0 le_rfl

lemma rtSample_sqrtModel : SqrtModel rtSample := by
  intro x hx
  unfold rtSample
  by_cases h : x ≤ 0
  · rw [if_pos h]
    exact ⟨le_rfl, by constructor <;> intro <;> linarith⟩
  · rw [if_neg h]
    refine ⟨zero_le_one, ?_⟩
    constructor
    · intro h1; exact absurd h1 one_ne_zero
    · intro h0; subst h0; exact absurd le_rfl h

/-- C2 (amended): `cosineSimilarity` computes `dot / (normA * normB)` with no
zero-magnitude guard: when either vector has zero magnitude the JavaScript
expression evaluates `0 / 0`, an undefined value (`NaN`), not `0`; when both
magnitudes are nonzero the score is the cosine-similarity quotient. -/
theorem cosine_similarity_zero_magnitude (rt : ℚ → ℚ) (hrt : SqrtModel rt)
    (a b : List ℚ) :
    ((normSq a = 0 ∨ normSq b = 0) → cosineSimilarityJS rt a b = none) ∧
    ((normSq a ≠ 0 ∧ normSq b ≠ 0) →
      cosineSimilarityJS rt a b =
        some (dotProduct a b / (rt (normSq a) * rt (normSq b)))) := by
  obtain ⟨hapos, haz⟩ := hrt (normSq a) (normSq_nonneg a)
  obtain ⟨hbpos, hbz⟩ := hrt (normSq b) (normSq_nonneg b)
  unfold cosineSimilarityJS jsDiv
  constructor
  · rintro (h | h)
    · rw [haz.mpr h, zero_mul, if_pos rfl]
    · rw [hbz.mpr h, mul_zero, if_pos rfl]
  · rintro ⟨h1, h2⟩
    have hna : rt (normSq a) ≠ 0 := fun h => h1 (haz.mp h)
    have hnb : rt (normSq b) ≠ 0 := fun h => h2 (hbz.mp h)
    rw [if_neg (mul_ne_zero hna hnb)]

theorem cosine_similarity_zero_magnitude_witness :
    SqrtModel rtSample ∧
    (((normSq [(1 : ℚ)] = 0 ∨ normSq [(2 : ℚ)] = 0) →
        cosineSimilarityJS rtSample [1] [2] = none) ∧
      ((normSq [(1 : ℚ)] ≠ 0 ∧ normSq [(2 : ℚ)] ≠ 0) →
        cosineSimilarityJS rtSample [1] [2] =
          some (dotProduct [1] [2] /
            (rtSample (normSq [1]) * rtSample (normSq [2]))))) :=
  ⟨rtSample_sqrtModel,
    cosine_similarity_zero_magnitude rtSample rtSample_sqrtModel [1] [2]⟩

/-- C2 counterexample: on the zero-magnitude pair `[0]`, `[0]` the code does
not return the guarded score `0` — the division is undefined (`NaN`). -/
theorem cosine_zero_guard_counterexample :
    SqrtModel rtSample ∧
    cosineSimilarityJS rtSample [(0 : ℚ)] [(0 : ℚ)] = none ∧
    cosineSimilarityJS rtSample [(0 : ℚ)] [(0 : ℚ)] ≠ some 0 := by
  refine ⟨rtSample_sqrtModel, ?_, ?_⟩
  · show jsDiv (dotProduct [0] [0]) (rtSample (normSq [0]) * rtSample (normSq [0])) = none
    norm_num [dotProduct, normSq, rtSample, jsDiv]
  · intro h
    rw [show cosineSimilarityJS rtSample [(0 : ℚ)] [(0 : ℚ)] = none from by
      norm_num [cosineSimilarityJS, dotProduct, normSq, rtSample, jsDiv]] at h
    cases h

lemma addDocument_error (embed : String → Except String (List ℚ))
    (id : String) (ts : ℕ) (s : InMemoryVectorStore) (content : String)
    (md : Metadata) (e : String) (h : embed content = Except.error e) :
    InMemoryVectorStore.addDocument embed id ts s content md =
      (Except.error e, s) := by
  unfold InMemoryVectorStore.addDocument
  rw [h]

lemma splitWords_ne_nil : ∀ cs : List Char, splitWords cs ≠ [] := by
  intro cs
  induction cs with
  | nil => simp [splitWords]
  | cons c rest ih =>
      unfold splitWords
      cases h : splitWords rest with
      | nil => exact absurd h ih
      | cons w ws =>
          by_cases hc : c = ' ' <;> simp [hc]

/-- C5: a rejected embedding call during ingestion propagates to the caller —
neither `InMemoryVectorStore.addDocument` nor `RAGService.addDocument` has a
`catch` — and the store is left unchanged (all-or-nothing insert): the store
mutations only happen after the awaited embedding call succeeds.  Stated for
the store method, for the orchestrator's single-document path, and for the
chunked path when the first chunk's embedding call rejects. -/
theorem embedding_failure_propagation :
    (∀ (embed : String → Except String (List ℚ)) id ts s content md e,
      embed content = Except.error e →
      InMemoryVectorStore.addDocument embed id ts s content md =
        (Except.error e, s)) ∧
    (∀ (embed : String → Except String (List ℚ)) genId ts st n content md cs
      (hC : 0 < cs) e, embed content = Except.error e →
      RAGService.addDocument embed genId ts st n content md false cs hC =
        (Except.error e, st, n)) ∧
    (∀ (embed : String → Except String (List ℚ)) genId ts st n content md cs
      (hC : 0 < cs) e,
      embed (String.intercalate " "
        (List.take cs (splitOnSpace content))) = Except.error e →
      RAGService.addDocument embed genId ts st n content md true cs hC =
        (Except.error e, st, n)) := by
  refine ⟨?_, ?_, ?_⟩
  · intro embed id ts s content md e h
    exact addDocument_error embed id ts s content md e h
  · intro embed genId ts st n content md cs hC e h
    unfold RAGService.addDocument
    rw [if_neg (by simp)]
    rw [addDocument_error embed (genId n) ts st content md e h]
  · intro embed genId ts st n content md cs hC e h
    unfold RAGService.addDocument
    rw [if_pos rfl]
    cases hw : splitOnSpace content with
    | nil => exact absurd hw (splitWords_ne_nil content.data)
    | cons w ws =>
        rw [hw] at h
        simp only [addChunksLoop]
        rw [addDocument_error _ _ _ _ _ _ e h]

/-- Embedding capability that always rejects. -/
def embedErr : String → Except String (List ℚ) :=
  fun _ => Except.error "embedding failed"

/-- Trivial chunk-size positivity used by closed statements. -/
theorem embedding_failure_propagation_witness :
    (embedErr "text" = Except.error "embedding failed" ∧
      InMemoryVectorStore.addDocument embedErr "doc_a" 0 emptyStore "text" [] =
        (Except.error "embedding failed", emptyStore)) ∧
    (RAGService.addDocument embedErr (fun n => "doc_" ++ toString n) 0
        emptyStore 0 "text" [] false 500 (by decide) =
      (Except.error "embedding failed", emptyStore, 0)) ∧
    (RAGService.addDocument embedErr (fun n => "doc_" ++ toString n) 0
        emptyStore 0 "some words here" [] true 2 (by decide) =
      (Except.error "embedding failed", emptyStore, 0)) :=
  ⟨⟨rfl, embedding_failure_propagation.1 embedErr "doc_a" 0 emptyStore "text"
      [] "embedding failed" rfl⟩,
    embedding_failure_propagation.2.1 embedErr _ 0 emptyStore 0 "text" []
      500 (by decide) "embedding failed" rfl,
    embedding_failure_propagation.2.2 embedErr _ 0 emptyStore 0
      "some words here" [] 2 (by decide) "embedding failed" rfl⟩

/-- C6: `RAGService.search` never raises: an error from the store's search
(embedding failure included) and an error from the generation capability are
both caught and converted into a `{success: false, message}` envelope. -/
theorem rag_search_failure_envelope :
    (∀ (embed : String → Except String (List ℚ)) sim gen s query topK
      generateAnswer e,
      InMemoryVectorStore.search embed sim s query topK = Except.error e →
      RAGService.search embed sim gen s query topK generateAnswer =
        ⟨false, some ("Error during search: " ++ e), none, none, none⟩) ∧
    (∀ (embed : String → Except String (List ℚ)) sim gen s query topK results
      e,
      InMemoryVectorStore.search embed sim s query topK = Except.ok results →
      results.length ≠ 0 →
      gen (buildGenRequest results query) = Except.error e →
      RAGService.search embed sim gen s query topK true =
        ⟨false, some ("Error during search: " ++ e), none, none, none⟩) := by
  constructor
  · intro embed sim gen s query topK generateAnswer e h
    unfold RAGService.search
    rw [h]
    rfl
  · intro embed sim gen s query topK results e hok hne hgen
    unfold RAGService.search
    rw [hok]
    simp only [if_neg hne, if_pos rfl, hgen]
    rfl

/-- A store holding one document, with consistent index state. -/
def oneDocStore : InMemoryVectorStore :=
  ⟨[("doc_a", ⟨"doc_a", "alpha text", [1, 2], [], 0⟩)], [[1, 2]], ["doc_a"]⟩

/-- Score function that ignores its arguments (used to keep closed statements
free of rational arithmetic). -/
def simZero : List ℚ → List ℚ → ℚ := fun _ _ => 0

/-- Generation capability that always rejects. -/
def genErr : GenRequest → Except String String :=
  fun _ => Except.error "generation failed"

lemma oneDocStore_search_err :
    InMemoryVectorStore.search embedErr simZero oneDocStore "query" 5 =
      Except.error "embedding failed" := rfl

lemma oneDocStore_search_ok :
    InMemoryVectorStore.search embedW simZero oneDocStore "query" 5 =
      Except.ok [⟨"doc_a", "alpha text", 0, []⟩] := by
  show (match mkScores simZero [1, 2] [[1, 2]] ["doc_a"] 0 with
    | Except.error msg => Except.error msg
    | Except.ok scores =>
        projectResults oneDocStore
          (List.take 5 (scores.mergeSort scoreLE))) =
    Except.ok [⟨"doc_a", "alpha text", 0, []⟩]
  rw [show mkScores simZero [1, 2] [[1, 2]] ["doc_a"] 0 =
    Except.ok [("doc_a", 0)] from rfl]
  simp only [List.mergeSort_singleton]
  rfl

theorem rag_search_failure_envelope_witness :
    (InMemoryVectorStore.search embedErr simZero oneDocStore "query" 5 =
        Except.error "embedding failed" ∧
      RAGService.search embedErr simZero genErr oneDocStore "query" 5 true =
        ⟨false, some "Error during search: embedding failed", none, none,
          none⟩) ∧
    (InMemoryVectorStore.search embedW simZero oneDocStore "query" 5 =
        Except.ok [⟨"doc_a", "alpha text", 0, []⟩] ∧
      RAGService.search embedW simZero genErr oneDocStore "query" 5 true =
        ⟨false, some "Error during search: generation failed", none, none,
          none⟩) :=
  ⟨⟨oneDocStore_search_err,
      rag_search_failure_envelope.1 embedErr simZero genErr oneDocStore
        "query" 5 true "embedding failed" oneDocStore_search_err⟩,
    ⟨oneDocStore_search_ok,
      rag_search_failure_envelope.2 embedW simZero genErr oneDocStore
        "query" 5 [⟨"doc_a", "alpha text", 0, []⟩] "generation failed"
        oneDocStore_search_ok (by decide) rfl⟩⟩

/-- C10: with `generateAnswer = false` and a nonempty result list,
`RAGService.search` returns the success envelope whose `answer` is exactly
`null`, carrying the ranked results and `store.getStats()`, and the outcome
is independent of the generation capability (it is never invoked). -/
theorem rag_search_no_answer (embed : String → Except String (List ℚ))
    (sim : List ℚ → List ℚ → ℚ) (gen : GenRequest → Except String String)
    (s : InMemoryVectorStore) (query : String) (topK : ℕ)
    (results : List SearchResult)
    (hok : InMemoryVectorStore.search embed sim s query topK =
      Except.ok results)
    (hne : results.length ≠ 0) :
    RAGService.search embed sim gen s query topK false =
      ⟨true, none,
        some (results.map fun r => ⟨r.id, r.content, r.score, r.metadata⟩),
        none, some s.getStats⟩ ∧
    ∀ gen2 : GenRequest → Except String String,
      RAGService.search embed sim gen2 s query topK false =
        RAGService.search embed sim gen s query topK false := by
  have key : ∀ g : GenRequest → Except String String,
      RAGService.search embed sim g s query topK false =
        ⟨true, none,
          some (results.map fun r => ⟨r.id, r.content, r.score, r.metadata⟩),
          none, some s.getStats⟩ := by
    intro g
    unfold RAGService.search
    rw [hok]
    show (if results.length = 0 then _ else _) = _
    rw [if_neg hne]
    rw [if_neg (by simp)]
  exact ⟨key gen, fun gen2 => (key gen2).trans (key gen).symm⟩

theorem rag_search_no_answer_witness :
    (InMemoryVectorStore.search embedW simZero oneDocStore "query" 5 =
        Except.ok [⟨"doc_a", "alpha text", 0, []⟩] ∧
      ([(⟨"doc_a", "alpha text", 0, []⟩ : SearchResult)].length ≠ 0)) ∧
    (RAGService.search embedW simZero genErr oneDocStore "query" 5 false =
        ⟨true, none, some [⟨"doc_a", "alpha text", 0, []⟩], none,
          some oneDocStore.getStats⟩ ∧
      ∀ gen2 : GenRequest → Except String String,
        RAGService.search embedW simZero gen2 oneDocStore "query" 5 false =
          RAGService.search embedW simZero genErr oneDocStore "query" 5
            false) :=
  ⟨⟨oneDocStore_search_ok, by decide⟩,
    rag_search_no_answer embedW simZero genErr oneDocStore "query" 5
      [⟨"doc_a", "alpha text", 0, []⟩] oneDocStore_search_ok (by decide)⟩


lemma heapSet_keys (h : List (ℕ × InMemoryVectorStore)) (r : ℕ)
    (v : InMemoryVectorStore) :
    (heapSet h r v).map Prod.fst = h.map Prod.fst := by
  induction h with
  | nil => rfl
  | cons kv rest ih =>
      unfold heapSet
      by_cases hk : kv.1 = r
      · rw [if_pos hk, List.map_cons, List.map_cons, ih, hk]
      · rw [if_neg hk, List.map_cons, List.map_cons, ih]

lemma heapGet_heapSet_self (h : List (ℕ × InMemoryVectorStore)) (r : ℕ)
    (v : InMemoryVectorStore) (hr : r ∈ h.map Prod.fst) :
    heapGet (heapSet h r v) r = some v := by
  induction h with
  | nil => cases hr
  | cons kv rest ih =>
      unfold heapSet heapGet
      by_cases hk : kv.1 = r
      · rw [if_pos hk, List.find?_cons_of_pos _ (by simp)]
        rfl
      · rw [if_neg hk, List.find?_cons_of_neg _ (by simp [hk])]
        have hr2 : r ∈ rest.map Prod.fst := by
          rw [List.map_cons, List.mem_cons] at hr
          cases hr with
          | inl he => exact absurd he.symm hk
          | inr hm => exact hm
        exact ih hr2

lemma heapGet_heapSet_ne (h : List (ℕ × InMemoryVectorStore)) (r : ℕ)
    (v : InMemoryVectorStore) (r2 : ℕ) (hne : r2 ≠ r) :
    heapGet (heapSet h r v) r2 = heapGet h r2 := by
  induction h with
  | nil => rfl
  | cons kv rest ih =>
      unfold heapSet heapGet
      by_cases hk : kv.1 = r
      · rw [if_pos hk]
        rw [List.find?_cons_of_neg _ (by
          simp only [beq_iff_eq]
          exact fun he => hne he.symm)]
        rw [List.find?_cons_of_neg _ (by
          simp only [beq_iff_eq, hk]
          exact fun he => hne he.symm)]
        exact ih
      · rw [if_neg hk]
        by_cases hk2 : kv.1 = r2
        · rw [List.find?_cons_of_pos _ (by simp [hk2]),
            List.find?_cons_of_pos _ (by simp [hk2])]
        · rw [List.find?_cons_of_neg _ (by simp [hk2]),
            List.find?_cons_of_neg _ (by simp [hk2])]
          exact ih

lemma heapGet_append_last (h : List (ℕ × InMemoryVectorStore)) (r : ℕ)
    (v : InMemoryVectorStore) (hr : r ∉ h.map Prod.fst) :
    heapGet (h ++ [(r, v)]) r = some v := by
  induction h with
  | nil => simp [heapGet]
  | cons kv rest ih =>
      rw [List.map_cons, List.mem_cons] at hr
      push_neg at hr
      unfold heapGet
      rw [List.cons_append]
      rw [List.find?_cons_of_neg _ (by
        simp only [beq_iff_eq]
        exact fun he => hr.1 he.symm)]
      exact ih hr.2

lemma heapGet_append_left (h : List (ℕ × InMemoryVectorStore))
    (tl : List (ℕ × InMemoryVectorStore)) (r : ℕ)
    (hr : r ∈ h.map Prod.fst) :
    heapGet (h ++ tl) r = heapGet h r := by
  unfold heapGet
  rw [List.find?_append]
  cases hf : List.find? (fun kv => kv.1 == r) h with
  | some kv => rfl
  | none =>
      rw [List.find?_eq_none] at hf
      rcases List.mem_map.mp hr with ⟨kv, hkv, hfst⟩
      exact absurd (by simp [hfst]) (hf kv hkv)

lemma sessGet_eq_none_iff (m : List (String × ℕ)) (k : String) :
    sessGet m k = none ↔ k ∉ m.map Prod.fst := by
  unfold sessGet
  rw [Option.map_eq_none', List.find?_eq_none]
  constructor
  · intro hf hk
    rcases List.mem_map.mp hk with ⟨kv, hkv, hfst⟩
    exact absurd (by simp [hfst]) (hf kv hkv)
  · intro hk kv hkv
    simp only [beq_iff_eq]
    intro he
    exact hk (he ▸ List.mem_map_of_mem Prod.fst hkv)

lemma sessGet_mem (m : List (String × ℕ)) (k : String) (r : ℕ)
    (h : sessGet m k = some r) : (k, r) ∈ m := by
  unfold sessGet at h
  cases hf : List.find? (fun kv => kv.1 == k) m with
  | none => rw [hf] at h; cases h
  | some kv =>
      rw [hf] at h
      have hp := List.find?_some hf
      have hm := List.mem_of_find?_eq_some hf
      obtain ⟨a, b⟩ := kv
      simp only [beq_iff_eq] at hp
      rw [show Option.map Prod.snd (some ((a, b) : String × ℕ)) =
        some b from rfl] at h
      simp only [Option.some.injEq] at h
      subst hp
      rw [show b = r from h] at hm
      exact hm

lemma sessGet_append_last (m : List (String × ℕ)) (k : String) (r : ℕ)
    (hk : k ∉ m.map Prod.fst) : sessGet (m ++ [(k, r)]) k = some r := by
  induction m with
  | nil => simp [sessGet]
  | cons kv rest ih =>
      rw [List.map_cons, List.mem_cons] at hk
      push_neg at hk
      unfold sessGet
      rw [List.cons_append]
      rw [List.find?_cons_of_neg _ (by
        simp only [beq_iff_eq]
        exact fun he => hk.1 he.symm)]
      exact ih hk.2

lemma sessGet_eraseP_self (m : List (String × ℕ)) (k : String)
    (hnd : (m.map Prod.fst).Nodup) :
    sessGet (List.eraseP (fun kv => kv.1 == k) m) k = none := by
  induction m with
  | nil => rfl
  | cons kv rest ih =>
      rw [List.map_cons] at hnd
      by_cases hk : kv.1 = k
      · rw [List.eraseP_cons_of_pos (by simp [hk])]
        rw [sessGet_eq_none_iff]
        intro hmem
        exact (List.nodup_cons.mp hnd).1 (hk ▸ hmem)
      · rw [List.eraseP_cons_of_neg (by simp [hk])]
        unfold sessGet
        rw [List.find?_cons_of_neg _ (by simp [hk])]
        exact ih (List.nodup_cons.mp hnd).2

lemma eraseP_keys_sublist (m : List (String × ℕ)) (k : String) :
    ((List.eraseP (fun kv => kv.1 == k) m).map Prod.fst).Sublist
      (m.map Prod.fst) :=
  (List.eraseP_sublist m).map Prod.fst

lemma eraseP_snds_sublist (m : List (String × ℕ)) (k : String) :
    ((List.eraseP (fun kv => kv.1 == k) m).map Prod.snd).Sublist
      (m.map Prod.snd) :=
  (List.eraseP_sublist m).map Prod.snd


lemma getStoreGlobal_of_some (st : RegState) (g : ℕ)
    (h : st.globalStore = some g) : getStoreGlobal st = (g, st) := by
  unfold getStoreGlobal
  rw [h]

lemma getStoreGlobal_of_none (st : RegState) (h : st.globalStore = none) :
    getStoreGlobal st =
      (st.nextRef,
        { heap := st.heap ++ [(st.nextRef, emptyStore)],
          nextRef := st.nextRef + 1,
          globalStore := some st.nextRef,
          sessionStores := st.sessionStores }) := by
  unfold getStoreGlobal
  rw [h]
  rfl

lemma getStoreSession_of_some (st : RegState) (sid : String) (r : ℕ)
    (h : sessGet st.sessionStores sid = some r) :
    getStoreSession st sid = (r, st) := by
  unfold getStoreSession
  rw [h]

lemma getStoreSession_of_none (st : RegState) (sid : String)
    (h : sessGet st.sessionStores sid = none) :
    getStoreSession st sid =
      (st.nextRef,
        { heap := st.heap ++ [(st.nextRef, emptyStore)],
          nextRef := st.nextRef + 1,
          globalStore := st.globalStore,
          sessionStores := st.sessionStores ++ [(sid, st.nextRef)] }) := by
  unfold getStoreSession
  rw [h]
  rfl

lemma getStore_none_eq (st : RegState) : getStore st none = getStoreGlobal st
  := rfl

lemma getStore_global_name_eq (st : RegState) :
    getStore st (some "global") = getStoreGlobal st := by
  show (if ("global" : String) = "" ∨ ("global" : String) = "global" then
    getStoreGlobal st else getStoreSession st "global") = getStoreGlobal st
  rw [if_pos (Or.inr rfl)]

lemma getStore_session_name_eq (st : RegState) (sid : String) (h1 : sid ≠ "")
    (h2 : sid ≠ "global") : getStore st (some sid) = getStoreSession st sid
  := by
  show (if sid = "" ∨ sid = "global" then getStoreGlobal st
    else getStoreSession st sid) = getStoreSession st sid
  rw [if_neg (by simp [h1, h2])]

lemma heap_keys_lt (st : RegState) (hWF : RegWF st) (r : ℕ)
    (hr : r ∈ st.heap.map Prod.fst) : r < st.nextRef := by
  rcases List.mem_map.mp hr with ⟨kv, hkv, hfst⟩
  exact hfst ▸ hWF.1 kv hkv

lemma sess_refs_mem_keys (st : RegState) (hWF : RegWF st) (r : ℕ)
    (hr : r ∈ st.sessionStores.map Prod.snd) :
    r ∈ st.heap.map Prod.fst := by
  rcases List.mem_map.mp hr with ⟨kv, hkv, hsnd⟩
  exact hsnd ▸ (hWF.2.2.2.2.1 kv hkv).2.2

lemma regWF_alloc_global (st : RegState) (hWF : RegWF st) :
    RegWF { heap := st.heap ++ [(st.nextRef, emptyStore)],
            nextRef := st.nextRef + 1,
            globalStore := some st.nextRef,
            sessionStores := st.sessionStores } := by
  refine ⟨?_, ?_, hWF.2.2.1, hWF.2.2.2.1, ?_, ?_⟩
  · intro kv hkv
    rcases List.mem_append.mp hkv with hm | hm
    · exact Nat.lt_trans (hWF.1 kv hm) (Nat.lt_succ_self _)
    · rw [List.mem_singleton] at hm
      rw [hm]
      exact Nat.lt_succ_self _
  · rw [List.map_append]
    refine List.Nodup.append hWF.2.1 (List.nodup_singleton _) ?_
    intro a ha hb
    rw [show List.map Prod.fst [(st.nextRef, emptyStore)] = [st.nextRef]
      from rfl, List.mem_singleton] at hb
    have hlt := heap_keys_lt st hWF a ha
    omega
  · intro kv hkv
    obtain ⟨hk1, hk2, hk3⟩ := hWF.2.2.2.2.1 kv hkv
    refine ⟨hk1, hk2, ?_⟩
    rw [List.map_append]
    exact List.mem_append_left _ hk3
  · intro r hr
    simp only [Option.some.injEq] at hr
    subst hr
    constructor
    · rw [List.map_append]
      refine List.mem_append_right _ ?_
      simp
    · intro hmem
      have hlt := heap_keys_lt st hWF _ (sess_refs_mem_keys st hWF _ hmem)
      omega

lemma regWF_alloc_session (st : RegState) (sid : String) (hWF : RegWF st)
    (h1 : sid ≠ "") (h2 : sid ≠ "global")
    (hnew : sessGet st.sessionStores sid = none) :
    RegWF { heap := st.heap ++ [(st.nextRef, emptyStore)],
            nextRef := st.nextRef + 1,
            globalStore := st.globalStore,
            sessionStores := st.sessionStores ++ [(sid, st.nextRef)] } := by
  refine ⟨?_, ?_, ?_, ?_, ?_, ?_⟩
  · intro kv hkv
    rcases List.mem_append.mp hkv with hm | hm
    · exact Nat.lt_trans (hWF.1 kv hm) (Nat.lt_succ_self _)
    · rw [List.mem_singleton] at hm
      rw [hm]
      exact Nat.lt_succ_self _
  · rw [List.map_append]
    refine List.Nodup.append hWF.2.1 (List.nodup_singleton _) ?_
    intro a ha hb
    rw [show List.map Prod.fst [(st.nextRef, emptyStore)] = [st.nextRef]
      from rfl, List.mem_singleton] at hb
    have hlt := heap_keys_lt st hWF a ha
    omega
  · rw [List.map_append]
    refine List.Nodup.append hWF.2.2.1 (List.nodup_singleton _) ?_
    intro a ha hb
    rw [show List.map Prod.fst [(sid, st.nextRef)] = [sid] from rfl,
      List.mem_singleton] at hb
    subst hb
    exact (sessGet_eq_none_iff st.sessionStores a).mp hnew ha
  · rw [List.map_append]
    refine List.Nodup.append hWF.2.2.2.1 (List.nodup_singleton _) ?_
    intro a ha hb
    rw [show List.map Prod.snd [(sid, st.nextRef)] = [st.nextRef] from rfl,
      List.mem_singleton] at hb
    subst hb
    have hlt := heap_keys_lt st hWF _ (sess_refs_mem_keys st hWF _ ha)
    omega
  · intro kv hkv
    rcases List.mem_append.mp hkv with hm | hm
    · obtain ⟨hk1, hk2, hk3⟩ := hWF.2.2.2.2.1 kv hm
      refine ⟨hk1, hk2, ?_⟩
      rw [List.map_append]
      exact List.mem_append_left _ hk3
    · rw [List.mem_singleton] at hm
      subst hm
      refine ⟨h1, h2, ?_⟩
      rw [List.map_append]
      refine List.mem_append_right _ ?_
      simp
  · intro r hr
    obtain ⟨hg1, hg2⟩ := hWF.2.2.2.2.2 r hr
    constructor
    · rw [List.map_append]
      exact List.mem_append_left _ hg1
    · rw [List.map_append]
      intro hmem
      rcases List.mem_append.mp hmem with hm | hm
      · exact hg2 hm
      · rw [show List.map Prod.snd [(sid, st.nextRef)] = [st.nextRef]
          from rfl, List.mem_singleton] at hm
        have hlt := heap_keys_lt st hWF r hg1
        omega

lemma heapSet_entry_keys (h : List (ℕ × InMemoryVectorStore)) (r : ℕ)
    (v : InMemoryVectorStore) :
    ∀ kv ∈ heapSet h r v, kv.1 ∈ h.map Prod.fst := by
  intro kv hkv
  have hmem := List.mem_map_of_mem Prod.fst hkv
  rwa [heapSet_keys] at hmem

lemma clearSession_session_of_some (st : RegState) (sid : String) (r : ℕ)
    (h2 : sid ≠ "global") (h : sessGet st.sessionStores sid = some r) :
    clearSession st sid =
      (true,
        { st with heap := heapSet st.heap r emptyStore,
                  sessionStores := List.eraseP (fun kv => kv.1 == sid)
                    st.sessionStores }) := by
  unfold clearSession
  rw [if_neg h2, h]

lemma clearSession_session_of_none (st : RegState) (sid : String)
    (h2 : sid ≠ "global") (h : sessGet st.sessionStores sid = none) :
    clearSession st sid = (false, st) := by
  unfold clearSession
  rw [if_neg h2, h]

lemma regWF_clearSession_session (st : RegState) (sid : String) (r : ℕ)
    (hWF : RegWF st) :
    RegWF { st with heap := heapSet st.heap r emptyStore,
                    sessionStores := List.eraseP (fun kv => kv.1 == sid)
                      st.sessionStores } := by
  refine ⟨?_, ?_, ?_, ?_, ?_, ?_⟩
  · intro kv hkv
    have hmem := heapSet_entry_keys st.heap r emptyStore kv hkv
    exact heap_keys_lt st hWF kv.1 hmem
  · rw [heapSet_keys]
    exact hWF.2.1
  · exact hWF.2.2.1.sublist (eraseP_keys_sublist st.sessionStores sid)
  · exact hWF.2.2.2.1.sublist (eraseP_snds_sublist st.sessionStores sid)
  · intro kv hkv
    have hmem := (List.eraseP_sublist st.sessionStores).subset hkv
    obtain ⟨hk1, hk2, hk3⟩ := hWF.2.2.2.2.1 kv hmem
    refine ⟨hk1, hk2, ?_⟩
    rw [heapSet_keys]
    exact hk3
  · intro g hg
    obtain ⟨hg1, hg2⟩ := hWF.2.2.2.2.2 g hg
    constructor
    · rw [heapSet_keys]
      exact hg1
    · intro hmem
      exact hg2 ((eraseP_snds_sublist st.sessionStores sid).subset hmem)

lemma getStoreSession_facts (st : RegState) (sid : String) (hWF : RegWF st)
    (h1 : sid ≠ "") (h2 : sid ≠ "global") :
    RegWF (getStoreSession st sid).2 ∧
    sessGet ((getStoreSession st sid).2).sessionStores sid =
      some (getStoreSession st sid).1 ∧
    (getStoreSession st sid).1 ∈
      ((getStoreSession st sid).2).heap.map Prod.fst := by
  cases h : sessGet st.sessionStores sid with
  | some r =>
      rw [getStoreSession_of_some st sid r h]
      refine ⟨hWF, h, ?_⟩
      exact (hWF.2.2.2.2.1 (sid, r) (sessGet_mem _ _ _ h)).2.2
  | none =>
      rw [getStoreSession_of_none st sid h]
      refine ⟨regWF_alloc_session st sid hWF h1 h2 h, ?_, ?_⟩
      · exact sessGet_append_last st.sessionStores sid st.nextRef
          ((sessGet_eq_none_iff st.sessionStores sid).mp h)
      · rw [List.map_append]
        refine List.mem_append_right _ ?_
        simp

lemma getStoreGlobal_facts (st : RegState) (hWF : RegWF st) :
    RegWF (getStoreGlobal st).2 ∧
    ((getStoreGlobal st).2).globalStore = some (getStoreGlobal st).1 ∧
    (getStoreGlobal st).1 ∈ ((getStoreGlobal st).2).heap.map Prod.fst := by
  cases h : st.globalStore with
  | some g =>
      rw [getStoreGlobal_of_some st g h]
      exact ⟨hWF, h, (hWF.2.2.2.2.2 g h).1⟩
  | none =>
      rw [getStoreGlobal_of_none st h]
      refine ⟨regWF_alloc_global st hWF, rfl, ?_⟩
      rw [List.map_append]
      refine List.mem_append_right _ ?_
      simp


lemma clear_then_get (st1 : RegState) (sid : String) (hWF1 : RegWF st1)
    (h1 : sid ≠ "") (h2 : sid ≠ "global") (r1 : ℕ)
    (hreg : sessGet st1.sessionStores sid = some r1)
    (hmem : r1 ∈ st1.heap.map Prod.fst) :
    (clearSession st1 sid).1 = true ∧
    (getStore (clearSession st1 sid).2 (some sid)).1 ≠ r1 ∧
    heapGet ((getStore (clearSession st1 sid).2 (some sid)).2).heap
      ((getStore (clearSession st1 sid).2 (some sid)).1) =
      some emptyStore := by
  rw [clearSession_session_of_some st1 sid r1 h2 hreg]
  set st2 : RegState :=
    { st1 with heap := heapSet st1.heap r1 emptyStore,
               sessionStores := List.eraseP (fun kv => kv.1 == sid)
                 st1.sessionStores } with hst2
  have hnone : sessGet st2.sessionStores sid = none :=
    sessGet_eraseP_self _ sid hWF1.2.2.1
  have hkeys : st2.heap.map Prod.fst = st1.heap.map Prod.fst :=
    heapSet_keys st1.heap r1 emptyStore
  rw [getStore_session_name_eq st2 sid h1 h2,
    getStoreSession_of_none st2 sid hnone]
  have hlt : r1 < st1.nextRef := heap_keys_lt st1 hWF1 r1 hmem
  have hn2 : st2.nextRef = st1.nextRef := rfl
  refine ⟨rfl, ?_, ?_⟩
  · intro he
    have he2 : st2.nextRef = r1 := he
    omega
  · show heapGet (st2.heap ++ [(st2.nextRef, emptyStore)]) st2.nextRef =
      some emptyStore
    refine heapGet_append_last _ _ _ ?_
    rw [hkeys]
    intro hmem2
    have := heap_keys_lt st1 hWF1 _ hmem2
    omega

lemma getStore_fresh_ne (st1 : RegState) (hWF1 : RegWF st1) (s2 : String)
    (h2 : s2 ≠ "") (h2g : s2 ≠ "global") (r1 : ℕ)
    (hmem : r1 ∈ st1.heap.map Prod.fst)
    (hsep : ∀ r2, sessGet st1.sessionStores s2 = some r2 → r2 ≠ r1) :
    (getStore st1 (some s2)).1 ≠ r1 := by
  rw [getStore_session_name_eq st1 s2 h2 h2g]
  cases hs : sessGet st1.sessionStores s2 with
  | some r2 =>
      rw [getStoreSession_of_some st1 s2 r2 hs]
      exact hsep r2 hs
  | none =>
      rw [getStoreSession_of_none st1 s2 hs]
      intro he
      have he2 : st1.nextRef = r1 := he
      have := heap_keys_lt st1 hWF1 r1 hmem
      omega

/-- The session-identity facts claim C4 asserts of a registry state. -/
def SessionIdentityFacts (st : RegState) : Prop :=
  (∀ sid : String, sid ≠ "" → sid ≠ "global" →
    getStore (getStore st (some sid)).2 (some sid) =
      ((getStore st (some sid)).1, (getStore st (some sid)).2)) ∧
  (∀ sid : String, sid ≠ "" → sid ≠ "global" →
    (clearSession (getStore st (some sid)).2 sid).1 = true ∧
    (getStore (clearSession (getStore st (some sid)).2 sid).2
      (some sid)).1 ≠ (getStore st (some sid)).1 ∧
    heapGet ((getStore (clearSession (getStore st (some sid)).2 sid).2
        (some sid)).2).heap
      ((getStore (clearSession (getStore st (some sid)).2 sid).2
        (some sid)).1) = some emptyStore) ∧
  ((getStore (getStore st none).2 (some "global")).1 =
      (getStore st none).1 ∧
    (getStore (getStore st none).2 none).1 = (getStore st none).1) ∧
  (∀ s1 s2 : String, s1 ≠ "" → s2 ≠ "" → s1 ≠ s2 →
    (getStore (getStore st (some s1)).2 (some s2)).1 ≠
      (getStore st (some s1)).1)

/-- C4: session-store identity.  For a non-empty identifier other than
`'global'`, repeated `getStore` calls return the same store instance and
leave the registry untouched; after a successful `clearSession` the next
`getStore` returns a different, freshly constructed empty instance;
`getStore()` and `getStore('global')` return one identical global instance
across repeated calls; and `getStore` with two distinct non-empty
identifiers returns distinct instances. -/
theorem session_store_identity (st : RegState) (hWF : RegWF st) :
    SessionIdentityFacts st := by
  refine ⟨?_, ?_, ?_, ?_⟩
  · intro sid h1 h2
    rw [getStore_session_name_eq st sid h1 h2,
      getStore_session_name_eq _ sid h1 h2]
    obtain ⟨_hWF1, hreg, _hmem⟩ := getStoreSession_facts st sid hWF h1 h2
    exact getStoreSession_of_some _ sid _ hreg
  · intro sid h1 h2
    rw [getStore_session_name_eq st sid h1 h2]
    obtain ⟨hWF1, hreg, hmem⟩ := getStoreSession_facts st sid hWF h1 h2
    exact clear_then_get _ sid hWF1 h1 h2 _ hreg hmem
  · rw [getStore_none_eq, getStore_none_eq, getStore_global_name_eq]
    obtain ⟨_hWF1, hglob, _hmem⟩ := getStoreGlobal_facts st hWF
    rw [getStoreGlobal_of_some _ _ hglob]
    exact ⟨rfl, rfl⟩
  · intro s1 s2 h1 h2 hne
    by_cases hg1 : s1 = "global"
    · subst hg1
      rw [getStore_global_name_eq]
      obtain ⟨hWF1, hglob, hmem⟩ := getStoreGlobal_facts st hWF
      refine getStore_fresh_ne _ hWF1 s2 h2 (fun he => hne he.symm) _ hmem
        ?_
      intro r2 hs he
      refine (hWF1.2.2.2.2.2 _ hglob).2 ?_
      rw [← he]
      exact List.mem_map_of_mem Prod.snd (sessGet_mem _ s2 r2 hs)
    · rw [getStore_session_name_eq st s1 h1 hg1]
      obtain ⟨hWF1, hreg, hmem⟩ := getStoreSession_facts st s1 hWF h1 hg1
      by_cases hg2 : s2 = "global"
      · subst hg2
        rw [getStore_global_name_eq]
        cases hs : ((getStoreSession st s1).2).globalStore with
        | some g =>
            rw [getStoreGlobal_of_some _ g hs]
            intro he
            have he2 : g = (getStoreSession st s1).1 := he
            refine (hWF1.2.2.2.2.2 g hs).2 ?_
            rw [he2]
            exact List.mem_map_of_mem Prod.snd (sessGet_mem _ s1 _ hreg)
        | none =>
            rw [getStoreGlobal_of_none _ hs]
            intro he
            have he2 : ((getStoreSession st s1).2).nextRef =
              (getStoreSession st s1).1 := he
            have hlt := heap_keys_lt _ hWF1 _ hmem
            omega
      · refine getStore_fresh_ne _ hWF1 s2 h2 hg2 _ hmem ?_
        intro r2 hs he
        have hm1 := sessGet_mem _ s1 _ hreg
        have hm2 := sessGet_mem _ s2 r2 hs
        have hp := List.inj_on_of_nodup_map hWF1.2.2.2.1 hm2 hm1
          (show Prod.snd (s2, r2) = Prod.snd (s1, (getStoreSession st s1).1)
            from he)
        rw [Prod.mk.injEq] at hp
        exact hne hp.1.symm

lemma regWF_empty : RegWF emptyReg := by
  refine ⟨?_, ?_, ?_, ?_, ?_, ?_⟩ <;> simp [emptyReg]

theorem session_store_identity_witness :
    RegWF emptyReg ∧ SessionIdentityFacts emptyReg :=
  ⟨regWF_empty, session_store_identity emptyReg regWF_empty⟩

lemma foldClear_keys (kvs : List (String × ℕ)) :
    ∀ h : List (ℕ × InMemoryVectorStore),
      (List.foldl (fun h kv => heapSet h kv.2 emptyStore) h kvs).map
        Prod.fst = h.map Prod.fst := by
  induction kvs with
  | nil => intro h; rfl
  | cons kv rest ih =>
      intro h
      rw [List.foldl_cons, ih, heapSet_keys]

lemma foldClear_get_ne (kvs : List (String × ℕ)) (r : ℕ)
    (hr : r ∉ kvs.map Prod.snd) :
    ∀ h : List (ℕ × InMemoryVectorStore),
      heapGet (List.foldl (fun h kv => heapSet h kv.2 emptyStore) h kvs) r =
        heapGet h r := by
  induction kvs with
  | nil => intro h; rfl
  | cons kv rest ih =>
      intro h
      rw [List.map_cons, List.mem_cons] at hr
      push_neg at hr
      rw [List.foldl_cons, ih hr.2, heapGet_heapSet_ne _ _ _ _ hr.1]

lemma foldClear_get_mem (kvs : List (String × ℕ)) (r : ℕ)
    (hr : r ∈ kvs.map Prod.snd) :
    ∀ h : List (ℕ × InMemoryVectorStore), r ∈ h.map Prod.fst →
      heapGet (List.foldl (fun h kv => heapSet h kv.2 emptyStore) h kvs) r =
        some emptyStore := by
  induction kvs with
  | nil => cases hr
  | cons kv rest ih =>
      intro h hkeys
      rw [List.foldl_cons]
      by_cases hrest : r ∈ rest.map Prod.snd
      · refine ih hrest _ ?_
        rw [heapSet_keys]
        exact hkeys
      · have hr2 : r = kv.2 := by
          rw [List.map_cons, List.mem_cons] at hr
          cases hr with
          | inl he => exact he
          | inr hm => exact absurd hm hrest
        rw [foldClear_get_ne rest r hrest]
        subst hr2
        exact heapGet_heapSet_self h kv.2 emptyStore hkeys

lemma clearAll_of_global_none (st : RegState) (h : st.globalStore = none) :
    clearAllSessions st =
      { heap := List.foldl (fun h kv => heapSet h kv.2 emptyStore) st.heap
          st.sessionStores,
        nextRef := st.nextRef, globalStore := none, sessionStores := [] } := by
  unfold clearAllSessions
  rw [h]

lemma clearAll_of_global_some (st : RegState) (g : ℕ)
    (h : st.globalStore = some g) :
    clearAllSessions st =
      { heap := heapSet (List.foldl (fun h kv => heapSet h kv.2 emptyStore)
          st.heap st.sessionStores) g emptyStore,
        nextRef := st.nextRef, globalStore := none, sessionStores := [] } := by
  unfold clearAllSessions
  rw [h]

/-- The post-conditions claim C9 asserts of `clearAllSessions`: the session
count is back to one, the registry holds no session entries, every previously
registered session store has been cleared in place, the global store has been
cleared and detached, and the next `getStore()` call constructs a brand-new
empty global store. -/
def ClearAllFacts (st : RegState) : Prop :=
  getSessionCount (clearAllSessions st) = 1 ∧
  (clearAllSessions st).sessionStores = [] ∧
  (∀ kv ∈ st.sessionStores,
    heapGet (clearAllSessions st).heap kv.2 = some emptyStore) ∧
  (clearAllSessions st).globalStore = none ∧
  (∀ g : ℕ, st.globalStore = some g →
    heapGet (clearAllSessions st).heap g = some emptyStore ∧
    (getStore (clearAllSessions st) none).1 ≠ g ∧
    heapGet ((getStore (clearAllSessions st) none).2).heap
      ((getStore (clearAllSessions st) none).1) = some emptyStore)

/-- C9: `clearAllSessions()` clears and evicts every non-global session
store, clears and detaches the global store, leaves `getSessionCount() = 1`,
and the next `getStore()` constructs a new empty global store. -/
theorem clear_all_sessions_spec (st : RegState) (hWF : RegWF st) :
    ClearAllFacts st := by
  have hkeys : (clearAllSessions st).heap.map Prod.fst =
      st.heap.map Prod.fst := by
    cases hg : st.globalStore with
    | none => rw [clearAll_of_global_none st hg]; exact foldClear_keys _ _
    | some g =>
        rw [clearAll_of_global_some st g hg]
        show (heapSet _ g emptyStore).map Prod.fst = _
        rw [heapSet_keys, foldClear_keys]
  refine ⟨?_, ?_, ?_, ?_, ?_⟩
  · cases hg : st.globalStore with
    | none => rw [clearAll_of_global_none st hg]; rfl
    | some g => rw [clearAll_of_global_some st g hg]; rfl
  · cases hg : st.globalStore with
    | none => rw [clearAll_of_global_none st hg]
    | some g => rw [clearAll_of_global_some st g hg]
  · intro kv hkv
    have hsnd : kv.2 ∈ st.sessionStores.map Prod.snd :=
      List.mem_map_of_mem Prod.snd hkv
    have hinkeys : kv.2 ∈ st.heap.map Prod.fst :=
      sess_refs_mem_keys st hWF kv.2 hsnd
    cases hg : st.globalStore with
    | none =>
        rw [clearAll_of_global_none st hg]
        exact foldClear_get_mem _ _ hsnd _ hinkeys
    | some g =>
        rw [clearAll_of_global_some st g hg]
        show heapGet (heapSet _ g emptyStore) kv.2 = some emptyStore
        rw [heapGet_heapSet_ne _ _ _ _
          (fun he => (hWF.2.2.2.2.2 g hg).2 (by rw [← he]; exact hsnd))]
        exact foldClear_get_mem _ _ hsnd _ hinkeys
  · cases hg : st.globalStore with
    | none => rw [clearAll_of_global_none st hg]
    | some g => rw [clearAll_of_global_some st g hg]
  · intro g hg
    have hgkeys : g ∈ st.heap.map Prod.fst := (hWF.2.2.2.2.2 g hg).1
    have hglt : g < st.nextRef := heap_keys_lt st hWF g hgkeys
    have hclr := clearAll_of_global_some st g hg
    refine ⟨?_, ?_, ?_⟩
    · rw [hclr]
      show heapGet (heapSet _ g emptyStore) g = some emptyStore
      refine heapGet_heapSet_self _ g emptyStore ?_
      rw [foldClear_keys]
      exact hgkeys
    · rw [hclr, getStore_none_eq, getStoreGlobal_of_none _ rfl]
      intro he
      have he2 : st.nextRef = g := he
      omega
    · rw [hclr, getStore_none_eq, getStoreGlobal_of_none _ rfl]
      show heapGet (_ ++ [(st.nextRef, emptyStore)]) st.nextRef =
        some emptyStore
      refine heapGet_append_last _ _ _ ?_
      show st.nextRef ∉ (heapSet _ g emptyStore).map Prod.fst
      rw [heapSet_keys, foldClear_keys]
      intro hmem
      exact absurd (heap_keys_lt st hWF _ hmem) (Nat.lt_irrefl _)

/-- A concrete registry: global store at reference 0, one session store
`s1` at reference 1. -/
def regW : RegState :=
  ⟨[(0, emptyStore), (1, emptyStore)], 2, some 0, [("s1", 1)]⟩

lemma regWF_regW : RegWF regW := by
  refine ⟨by decide, by decide, by decide, by decide, by decide, ?_⟩
  intro r hr
  have hr2 : r = 0 := by
    have h1 : some (0 : ℕ) = some r := hr
    exact (Option.some_inj.mp h1).symm
  subst hr2
  exact ⟨by decide, by decide⟩

theorem clear_all_sessions_spec_witness :
    RegWF regW ∧ ClearAllFacts regW :=
  ⟨regWF_regW, clear_all_sessions_spec regW regWF_regW⟩

/-- The number of entries `bulkAddDocuments` actually ingests: those whose
content is a non-empty string (truthy in JavaScript). -/
def nonEmptyCount (docs : List BulkDocument) : ℕ :=
  (docs.filter fun d => !(d.content == "")).length

/-- The generated ids `genId n`, ..., `genId (n+k-1)` are pairwise distinct
and absent from the store (collision-freeness of the generated ids for the
next `k` ingestions). -/
def freshIds (genId : ℕ → String) (n k : ℕ) (st : InMemoryVectorStore) :
    Prop :=
  (∀ m1 : ℕ, m1 < k → ∀ m2 : ℕ, m2 < k → m1 ≠ m2 →
    genId (n + m1) ≠ genId (n + m2)) ∧
  (∀ m : ℕ, m < k → genId (n + m) ∉ storeIds st)

instance (genId : ℕ → String) (n k : ℕ) (st : InMemoryVectorStore) :
    Decidable (freshIds genId n k st) := by
  unfold freshIds
  infer_instance

lemma addDocument_ok (embed : String → Except String (List ℚ)) (id : String)
    (ts : ℕ) (s : InMemoryVectorStore) (content : String) (md : Metadata)
    (emb : List ℚ) (hemb : embed content = Except.ok emb) :
    InMemoryVectorStore.addDocument embed id ts s content md =
      (Except.ok id,
        ⟨mapSet s.documents id ⟨id, content, emb, md, ts⟩,
         s.indexEmbeddings ++ [emb], s.indexIds ++ [id]⟩) := by
  unfold InMemoryVectorStore.addDocument
  rw [hemb]

lemma freshIds_tail (genId : ℕ → String) (n k : ℕ)
    (st : InMemoryVectorStore) (doc : Document)
    (h : freshIds genId n (k + 1) st) :
    freshIds genId (n + 1) k
      ⟨st.documents ++ [(genId n, doc)], st.indexEmbeddings ++
        [doc.embedding], st.indexIds ++ [genId n]⟩ := by
  constructor
  · intro m1 hm1 m2 hm2 hne
    have := h.1 (m1 + 1) (by omega) (m2 + 1) (by omega) (by omega)
    rw [show n + (m1 + 1) = n + 1 + m1 from by omega,
      show n + (m2 + 1) = n + 1 + m2 from by omega] at this
    exact this
  · intro m hm
    have hmem := h.2 (m + 1) (by omega)
    have hhead := h.1 0 (by omega) (m + 1) (by omega) (by omega)
    rw [show n + (m + 1) = n + 1 + m from by omega] at hmem hhead
    rw [Nat.add_zero] at hhead
    show genId (n + 1 + m) ∉
      (st.documents ++ [(genId n, doc)]).map Prod.fst
    rw [List.map_append, List.mem_append]
    rintro (hin | hin)
    · exact hmem hin
    · rw [show List.map Prod.fst [(genId n, doc)] = [genId n] from rfl,
        List.mem_singleton] at hin
      exact hhead hin.symm

lemma size_append_one (docs : List (String × Document))
    (kv : String × Document) (embs : List (List ℚ)) (ids : List String) :
    (⟨docs ++ [kv], embs, ids⟩ : InMemoryVectorStore).size =
      docs.length + 1 := by
  show (docs ++ [kv]).length = docs.length + 1
  rw [List.length_append]
  rfl

lemma bulkLoop_spec (embed : String → Except String (List ℚ))
    (genId : ℕ → String) (ts : ℕ) :
    ∀ (docs : List BulkDocument) (n : ℕ) (st : InMemoryVectorStore),
      (∀ d ∈ docs, d.content ≠ "" → (embed d.content).isOk = true) →
      freshIds genId n (nonEmptyCount docs) st →
      ∃ ids st1,
        bulkLoop embed genId ts docs n st =
          (Except.ok ids, st1, n + nonEmptyCount docs) ∧
        ids.length = nonEmptyCount docs ∧
        st1.size = st.size + nonEmptyCount docs := by
  intro docs
  induction docs with
  | nil =>
      intro n st _ _
      exact ⟨[], st, rfl, rfl, rfl⟩
  | cons d ds ih =>
      intro n st hemb hfresh
      by_cases hd : d.content = ""
      · have hcount : nonEmptyCount (d :: ds) = nonEmptyCount ds := by
          simp [nonEmptyCount, hd]
        rw [hcount] at hfresh
        obtain ⟨ids, st1, hb, hlen, hsz⟩ := ih n st
          (fun x hx => hemb x (List.mem_cons_of_mem d hx)) hfresh
        refine ⟨ids, st1, ?_, by rw [hlen, hcount], by rw [hsz, hcount]⟩
        unfold bulkLoop
        rw [if_pos hd, hb, hcount]
      · have hcount : nonEmptyCount (d :: ds) = nonEmptyCount ds + 1 := by
          simp [nonEmptyCount, hd]
        have hok := hemb d (List.mem_cons_self d ds) hd
        cases hembed : embed d.content with
        | error e => rw [hembed] at hok; cases hok
        | ok emb =>
            have hfr0 : genId n ∉ storeIds st := by
              have := hfresh.2 0 (by omega)
              rwa [Nat.add_zero] at this
            have hset := mapSet_fresh st.documents (genId n)
              ⟨genId n, d.content, emb, d.metadata.getD [], ts⟩ hfr0
            have hfresh2 : freshIds genId (n + 1) (nonEmptyCount ds)
                ⟨st.documents ++ [(genId n,
                  ⟨genId n, d.content, emb, d.metadata.getD [], ts⟩)],
                 st.indexEmbeddings ++ [emb], st.indexIds ++ [genId n]⟩ := by
              have := freshIds_tail genId n (nonEmptyCount ds) st
                ⟨genId n, d.content, emb, d.metadata.getD [], ts⟩
                (by rw [← hcount]; exact hfresh)
              exact this
            obtain ⟨ids, st1, hb, hlen, hsz⟩ := ih (n + 1)
              ⟨st.documents ++ [(genId n,
                ⟨genId n, d.content, emb, d.metadata.getD [], ts⟩)],
               st.indexEmbeddings ++ [emb], st.indexIds ++ [genId n]⟩
              (fun x hx => hemb x (List.mem_cons_of_mem d hx)) hfresh2
            refine ⟨genId n :: ids, st1, ?_, ?_, ?_⟩
            · have hstep : bulkLoop embed genId ts (d :: ds) n st =
                  (Except.ok (genId n :: ids), st1,
                    n + 1 + nonEmptyCount ds) := by
                simp only [bulkLoop]
                rw [if_neg hd, addDocument_ok embed (genId n) ts st
                  d.content (d.metadata.getD []) emb hembed]
                simp only [hset, hb]
              rw [hstep]
              rw [show n + 1 + nonEmptyCount ds =
                n + nonEmptyCount (d :: ds) from by omega]
            · rw [List.length_cons, hlen, hcount]
            · rw [hsz, hcount, size_append_one]
              show st.documents.length + 1 + nonEmptyCount ds =
                st.documents.length + (nonEmptyCount ds + 1)
              omega

/-- C7 (amended): `bulkAddDocuments` ingests exactly the entries whose
`content` is a non-empty string (JavaScript truthiness: only the empty string
is skipped — whitespace-only content is ingested), raises nothing for skips,
returns one id per ingested entry, and grows the store by that count. -/
theorem bulk_add_skips_empty_content
    (embed : String → Except String (List ℚ)) (genId : ℕ → String) (ts : ℕ)
    (docs : List BulkDocument) (n : ℕ) (st : InMemoryVectorStore)
    (hemb : ∀ d ∈ docs, d.content ≠ "" → (embed d.content).isOk = true)
    (hfresh : freshIds genId n (nonEmptyCount docs) st) :
    ∃ ids st1,
      RAGService.bulkAddDocuments embed genId ts st n docs =
        (Except.ok ⟨true, ids,
          "Added " ++ toString ids.length ++ " document(s)",
          st1.getStats⟩, st1, n + nonEmptyCount docs) ∧
      ids.length = nonEmptyCount docs ∧
      st1.size = st.size + nonEmptyCount docs := by
  obtain ⟨ids, st1, hb, hlen, hsz⟩ :=
    bulkLoop_spec embed genId ts docs n st hemb hfresh
  refine ⟨ids, st1, ?_, hlen, hsz⟩
  unfold RAGService.bulkAddDocuments
  rw [hb]

/-- Sequentially generated document ids used in closed statements. -/
def genIdW : ℕ → String := fun n => "doc_" ++ toString n

/-- A concrete bulk input: one normal entry, one empty entry, one
whitespace-only entry. -/
def docsW : List BulkDocument :=
  [⟨"hello world", none⟩, ⟨"", none⟩, ⟨" ", none⟩]

/-- C7 counterexample: a whitespace-only (blank but non-empty) entry is NOT
skipped — `bulkAddDocuments` on the single blank entry `" "` returns one id
and grows the store by one, where the claim predicts zero. -/
theorem bulk_blank_counterexample :
    ((RAGService.bulkAddDocuments embedW genIdW 0 emptyStore 0
        [⟨" ", none⟩]).1.toOption.map fun r => r.documentIds.length) =
      some 1 ∧
    ((RAGService.bulkAddDocuments embedW genIdW 0 emptyStore 0
        [⟨" ", none⟩]).2.1).size = 1 := by
  constructor
  · rfl
  · rfl

theorem bulk_add_skips_empty_content_witness :
    (∀ d ∈ docsW, d.content ≠ "" → (embedW d.content).isOk = true) ∧
    freshIds genIdW 0 (nonEmptyCount docsW) emptyStore ∧
    (∃ ids st1,
      RAGService.bulkAddDocuments embedW genIdW 0 emptyStore 0 docsW =
        (Except.ok ⟨true, ids,
          "Added " ++ toString ids.length ++ " document(s)",
          st1.getStats⟩, st1, 0 + nonEmptyCount docsW) ∧
      ids.length = nonEmptyCount docsW ∧
      st1.size = emptyStore.size + nonEmptyCount docsW) :=
  ⟨by decide, by decide,
    bulk_add_skips_empty_content embedW genIdW 0 docsW 0 emptyStore
      (by decide) (by decide)⟩

lemma metaGet_metaSet_self (m : Metadata) (k : String) (v : MetaVal) :
    metaGet (metaSet m k v) k = some v := by
  induction m with
  | nil => simp [metaGet, metaSet]
  | cons kv rest ih =>
      unfold metaSet
      by_cases hk : kv.1 = k
      · rw [if_pos hk]
        unfold metaGet
        rw [List.find?_cons_of_pos _ (by simp)]
        rfl
      · rw [if_neg hk]
        unfold metaGet
        rw [List.find?_cons_of_neg _ (by simp [hk])]
        exact ih

lemma metaGet_metaSet_other (m : Metadata) (k : String) (v : MetaVal)
    (k2 : String) (hne : k2 ≠ k) :
    metaGet (metaSet m k v) k2 = metaGet m k2 := by
  induction m with
  | nil =>
      unfold metaSet metaGet
      rw [List.find?_cons_of_neg _ (by simp only [beq_iff_eq]; exact fun he => hne he.symm)]
  | cons kv rest ih =>
      unfold metaSet
      by_cases hk : kv.1 = k
      · rw [if_pos hk]
        unfold metaGet
        rw [List.find?_cons_of_neg _ (by simp only [beq_iff_eq]; exact fun he => hne he.symm)]
        rw [List.find?_cons_of_neg _ (by simp only [beq_iff_eq, hk]; exact fun he => hne he.symm)]
      · rw [if_neg hk]
        by_cases hk2 : kv.1 = k2
        · unfold metaGet
          rw [List.find?_cons_of_pos _ (by simp [hk2]),
            List.find?_cons_of_pos _ (by simp [hk2])]
        · unfold metaGet
          rw [List.find?_cons_of_neg _ (by simp [hk2]),
            List.find?_cons_of_neg _ (by simp [hk2])]
          exact ih

lemma mapGet_append_left (l tl : List (String × Document)) (k : String)
    (hk : k ∈ l.map Prod.fst) : mapGet (l ++ tl) k = mapGet l k := by
  unfold mapGet
  rw [List.find?_append]
  cases hf : List.find? (fun kv => kv.1 == k) l with
  | some kv => rfl
  | none =>
      rw [List.find?_eq_none] at hf
      rcases List.mem_map.mp hk with ⟨kv, hkv, hfst⟩
      exact absurd (by simp [hfst]) (hf kv hkv)

lemma mapGet_append_last (l : List (String × Document)) (k : String)
    (v : Document) (hk : k ∉ l.map Prod.fst) :
    mapGet (l ++ [(k, v)]) k = some v := by
  induction l with
  | nil => simp [mapGet]
  | cons kv rest ih =>
      rw [List.map_cons, List.mem_cons] at hk
      push_neg at hk
      unfold mapGet
      rw [List.cons_append]
      rw [List.find?_cons_of_neg _ (by
        simp only [beq_iff_eq]
        exact fun he => hk.1 he.symm)]
      exact ih hk.2

/-- The `j`-th word-count chunk of the word list `ws` with chunk size `C`. -/
def chunkStr (C : ℕ) (ws : List String) (j : ℕ) : String :=
  String.intercalate " " (List.take C (List.drop (j * C) ws))

/-- `Math.ceil(len / C)` on naturals. -/
def numChunks (C len : ℕ) : ℕ := (len + C - 1) / C

lemma numChunks_nil (C : ℕ) (hC : 0 < C) : numChunks C 0 = 0 := by
  unfold numChunks
  exact Nat.div_eq_of_lt (by omega)

lemma numChunks_step (C : ℕ) (hC : 0 < C) (len : ℕ) (hlen : 0 < len) :
    numChunks C len = numChunks C (len - C) + 1 := by
  unfold numChunks
  rcases Nat.lt_or_ge len C with h | h
  · have h1 : len - C = 0 := by omega
    rw [h1]
    rw [Nat.div_eq_of_lt (show 0 + C - 1 < C from by omega)]
    rw [show len + C - 1 = (len - 1) + C from by omega,
      Nat.add_div_right _ hC, Nat.div_eq_of_lt (by omega)]
  · rw [show len + C - 1 = ((len - C) + C - 1) + C from by omega,
      Nat.add_div_right _ hC]

lemma chunkStr_shift (C : ℕ) (ws : List String) (j : ℕ) :
    chunkStr C (List.drop C ws) j = chunkStr C ws (j + 1) := by
  unfold chunkStr
  rw [List.drop_drop]
  rw [show C + j * C = (j + 1) * C from by ring]

lemma addChunksLoop_spec (embed : String → Except String (List ℚ))
    (genId : ℕ → String) (ts : ℕ) (md : Metadata) (C : ℕ) (hC : 0 < C)
    (total : ℕ) :
    ∀ (fuel : ℕ) (ws : List String), ws.length ≤ fuel →
      ∀ (i n : ℕ) (st : InMemoryVectorStore),
      (∀ j : ℕ, j < numChunks C ws.length →
        (embed (chunkStr C ws j)).isOk = true) →
      freshIds genId n (numChunks C ws.length) st →
      ∃ ids st1 tail,
        addChunksLoop embed genId ts md C hC total ws i n st =
          (Except.ok ids, st1, n + numChunks C ws.length) ∧
        ids.length = numChunks C ws.length ∧
        st1.size = st.size + numChunks C ws.length ∧
        st1.documents = st.documents ++ tail ∧
        (∀ j : ℕ, j < numChunks C ws.length →
          ids[j]? = some (genId (n + j)) ∧
          ∃ d : Document,
            mapGet st1.documents (genId (n + j)) = some d ∧
            d.content = chunkStr C ws j ∧
            d.metadata = metaSet (metaSet md "chunkIndex"
              (MetaVal.num (((i + j * C) / C : ℕ) : ℚ))) "totalChunks"
              (MetaVal.num total)) := by
  intro fuel
  induction fuel with
  | zero =>
      intro ws hlen i n st _hemb _hfresh
      have hnil : ws = [] := List.eq_nil_of_length_eq_zero
        (Nat.le_zero.mp hlen)
      subst hnil
      have h0 : numChunks C ([] : List String).length = 0 := by
        rw [show ([] : List String).length = 0 from rfl]
        exact numChunks_nil C hC
      refine ⟨[], st, [], ?_, ?_, ?_, (List.append_nil st.documents).symm,
        ?_⟩
      · rw [h0]
        simp [addChunksLoop]
      · rw [h0]
        rfl
      · rw [h0]
        rfl
      · intro j hj
        rw [h0] at hj
        omega
  | succ f ihf =>
      intro ws hlen i n st hemb hfresh
      cases ws with
      | nil =>
          exact ihf [] (Nat.zero_le f) i n st hemb hfresh
      | cons w ws2 =>
          have hpos : 0 < (w :: ws2).length := by simp
          have hT := numChunks_step C hC (w :: ws2).length hpos
          have hdroplen : (List.drop C (w :: ws2)).length =
              (w :: ws2).length - C := List.length_drop C (w :: ws2)
          have hchunk0 : chunkStr C (w :: ws2) 0 =
              String.intercalate " " (List.take C (w :: ws2)) := by
            unfold chunkStr
            rw [Nat.zero_mul, List.drop_zero]
          have hok0 : (embed (chunkStr C (w :: ws2) 0)).isOk = true :=
            hemb 0 (by omega)
          cases hembed : embed (chunkStr C (w :: ws2) 0) with
          | error e => rw [hembed] at hok0; cases hok0
          | ok emb =>
              have hembed2 : embed (String.intercalate " "
                  (List.take C (w :: ws2))) = Except.ok emb := by
                rw [← hchunk0]
                exact hembed
              have hfr0 : genId n ∉ storeIds st := by
                have := hfresh.2 0 (by omega)
                rwa [Nat.add_zero] at this
              set d0 : Document :=
                ⟨genId n, String.intercalate " " (List.take C (w :: ws2)),
                  emb, metaSet (metaSet md "chunkIndex"
                    (MetaVal.num ((i / C : ℕ) : ℚ))) "totalChunks"
                    (MetaVal.num total), ts⟩ with hd0
              have hset := mapSet_fresh st.documents (genId n) d0 hfr0
              set st2 : InMemoryVectorStore :=
                ⟨st.documents ++ [(genId n, d0)],
                 st.indexEmbeddings ++ [emb],
                 st.indexIds ++ [genId n]⟩ with hst2
              have hst2docs : st2.documents =
                  st.documents ++ [(genId n, d0)] := rfl
              have hst2size : st2.size = st.size + 1 := by
                show (st.documents ++ [(genId n, d0)]).length =
                  st.documents.length + 1
                rw [List.length_append]
                rfl
              have hfresh2 : freshIds genId (n + 1)
                  (numChunks C (List.drop C (w :: ws2)).length) st2 := by
                rw [hst2, hd0]
                refine freshIds_tail genId n _ st _ ?_
                rw [hdroplen, ← hT]
                exact hfresh
              have hemb2 : ∀ j : ℕ,
                  j < numChunks C (List.drop C (w :: ws2)).length →
                  (embed (chunkStr C (List.drop C (w :: ws2)) j)).isOk =
                    true := by
                intro j hj
                rw [chunkStr_shift]
                refine hemb (j + 1) ?_
                rw [hdroplen] at hj
                omega
              obtain ⟨ids2, st1, tail2, heq, hlen2, hsz2, hdocs2, hfacts2⟩ :=
                ihf (List.drop C (w :: ws2))
                  (by rw [hdroplen]; omega)
                  (i + C) (n + 1) st2 hemb2 hfresh2
              have hstep : addChunksLoop embed genId ts md C hC total
                  (w :: ws2) i n st =
                  (Except.ok (genId n :: ids2), st1,
                    n + 1 + numChunks C (List.drop C (w :: ws2)).length) :=
                by
                simp only [addChunksLoop]
                rw [addDocument_ok embed (genId n) ts st
                  (String.intercalate " " (List.take C (w :: ws2)))
                  (metaSet (metaSet md "chunkIndex"
                    (MetaVal.num ((i / C : ℕ) : ℚ)))
                    "totalChunks" (MetaVal.num total)) emb hembed2]
                rw [← hd0, hset, ← hst2docs]
                have hrec : addChunksLoop embed genId ts md C hC total
                    (List.drop C (w :: ws2)) (i + C) (n + 1)
                    ⟨st2.documents, st.indexEmbeddings ++ [emb],
                      st.indexIds ++ [genId n]⟩ =
                    (Except.ok ids2, st1,
                      n + 1 + numChunks C (List.drop C (w :: ws2)).length)
                  := heq
                simp only [hrec]
              refine ⟨genId n :: ids2, st1, (genId n, d0) :: tail2,
                ?_, ?_, ?_, ?_, ?_⟩
              · rw [hstep]
                rw [hdroplen]
                rw [show n + 1 + numChunks C ((w :: ws2).length - C) =
                  n + numChunks C (w :: ws2).length from by omega]
              · rw [List.length_cons, hlen2, hdroplen]
                omega
              · rw [hsz2, hst2size, hdroplen]
                omega
              · rw [hdocs2, hst2docs, List.append_assoc]
                rfl
              · intro j hj
                cases j with
                | zero =>
                    constructor
                    · rw [Nat.add_zero, List.getElem?_cons_zero]
                    · refine ⟨d0, ?_, ?_, ?_⟩
                      · rw [Nat.add_zero, hdocs2, hst2docs]
                        rw [mapGet_append_left _ tail2 (genId n) (by
                          rw [List.map_append]
                          refine List.mem_append_right _ ?_
                          simp)]
                        exact mapGet_append_last st.documents (genId n) d0
                          hfr0
                      · rw [hd0, hchunk0]
                      · rw [hd0]
                        rw [show i + 0 * C = i from by ring]
                | succ j2 =>
                    have hj2 : j2 <
                        numChunks C (List.drop C (w :: ws2)).length := by
                      rw [hdroplen]
                      omega
                    obtain ⟨hid2, d, hd1, hd2, hd3⟩ := hfacts2 j2 hj2
                    constructor
                    · rw [List.getElem?_cons_succ, hid2]
                      rw [show n + 1 + j2 = n + (j2 + 1) from by omega]
                    · refine ⟨d, ?_, ?_, ?_⟩
                      · rw [show n + (j2 + 1) = n + 1 + j2 from by omega]
                        exact hd1
                      · rw [hd2, chunkStr_shift]
                      · rw [hd3]
                        rw [show i + C + j2 * C = i + (j2 + 1) * C from by
                          ring]

/-- C8: chunked ingestion.  `RAGService.addDocument` with `useChunks = true`
splits the content into `N` words on single spaces and creates exactly
`ceil(N/C)` documents; the `j`-th chunk holds the `C` consecutive words
starting at word `j*C` (the final chunk may be shorter), and its metadata
carries `chunkIndex = j` and `totalChunks = ceil(N/C)` alongside the
caller-supplied metadata. -/
theorem chunked_ingestion (embed : String → Except String (List ℚ))
    (genId : ℕ → String) (ts : ℕ) (st : InMemoryVectorStore) (n : ℕ)
    (content : String) (md : Metadata) (C : ℕ) (hC : 0 < C)
    (hemb : ∀ j : ℕ, j < numChunks C (splitOnSpace content).length →
      (embed (chunkStr C (splitOnSpace content) j)).isOk = true)
    (hfresh : freshIds genId n (numChunks C (splitOnSpace content).length)
      st) :
    ∃ ids st1,
      RAGService.addDocument embed genId ts st n content md true C hC =
        (Except.ok ⟨true, ids,
          "Added " ++ toString ids.length ++ " document(s)",
          st1.getStats⟩, st1,
          n + numChunks C (splitOnSpace content).length) ∧
      ids.length = numChunks C (splitOnSpace content).length ∧
      st1.size = st.size + numChunks C (splitOnSpace content).length ∧
      (∀ j : ℕ, j < numChunks C (splitOnSpace content).length →
        ids[j]? = some (genId (n + j)) ∧
        ∃ d : Document,
          mapGet st1.documents (genId (n + j)) = some d ∧
          d.content = String.intercalate " "
            (List.take C (List.drop (j * C) (splitOnSpace content))) ∧
          metaGet d.metadata "chunkIndex" = some (MetaVal.num j) ∧
          metaGet d.metadata "totalChunks" = some
            (MetaVal.num (numChunks C (splitOnSpace content).length)) ∧
          ∀ k2 : String, k2 ≠ "chunkIndex" → k2 ≠ "totalChunks" →
            metaGet d.metadata k2 = metaGet md k2) := by
  obtain ⟨ids, st1, tail, heq, hlen, hsz, _hdocs, hfacts⟩ :=
    addChunksLoop_spec embed genId ts md C hC
      (((splitOnSpace content).length + C - 1) / C)
      (splitOnSpace content).length (splitOnSpace content) le_rfl 0 n st
      hemb hfresh
  refine ⟨ids, st1, ?_, hlen, hsz, ?_⟩
  · unfold RAGService.addDocument
    rw [if_pos rfl]
    simp only [heq]
  · intro j hj
    obtain ⟨hid, d, hd1, hd2, hd3⟩ := hfacts j hj
    refine ⟨hid, d, hd1, ?_, ?_, ?_, ?_⟩
    · rw [hd2]
      rfl
    · rw [hd3]
      rw [metaGet_metaSet_other _ _ _ _ (by decide), metaGet_metaSet_self]
      rw [show (0 + j * C) / C = j from by
        rw [Nat.zero_add]
        exact Nat.mul_div_cancel j hC]
    · rw [hd3, metaGet_metaSet_self]
      rfl
    · intro k2 hk1 hk2
      rw [hd3, metaGet_metaSet_other _ _ _ _ hk2,
        metaGet_metaSet_other _ _ _ _ hk1]

theorem chunked_ingestion_witness :
    (0 < 2 ∧
      (∀ j : ℕ, j < numChunks 2 (splitOnSpace "alpha beta gamma").length →
        (embedW (chunkStr 2 (splitOnSpace "alpha beta gamma") j)).isOk =
          true) ∧
      freshIds genIdW 0
        (numChunks 2 (splitOnSpace "alpha beta gamma").length)
        emptyStore) ∧
    (∃ ids st1,
      RAGService.addDocument embedW genIdW 0 emptyStore 0
          "alpha beta gamma" [] true 2 (by decide) =
        (Except.ok ⟨true, ids,
          "Added " ++ toString ids.length ++ " document(s)",
          st1.getStats⟩, st1,
          0 + numChunks 2 (splitOnSpace "alpha beta gamma").length) ∧
      ids.length = numChunks 2 (splitOnSpace "alpha beta gamma").length ∧
      st1.size = emptyStore.size +
        numChunks 2 (splitOnSpace "alpha beta gamma").length ∧
      (∀ j : ℕ, j < numChunks 2 (splitOnSpace "alpha beta gamma").length →
        ids[j]? = some (genIdW (0 + j)) ∧
        ∃ d : Document,
          mapGet st1.documents (genIdW (0 + j)) = some d ∧
          d.content = String.intercalate " "
            (List.take 2 (List.drop (j * 2)
              (splitOnSpace "alpha beta gamma"))) ∧
          metaGet d.metadata "chunkIndex" = some (MetaVal.num j) ∧
          metaGet d.metadata "totalChunks" = some
            (MetaVal.num
              (numChunks 2 (splitOnSpace "alpha beta gamma").length)) ∧
          ∀ k2 : String, k2 ≠ "chunkIndex" → k2 ≠ "totalChunks" →
            metaGet d.metadata k2 = metaGet ([] : Metadata) k2)) :=
  ⟨⟨by decide, by decide, by decide⟩,
    chunked_ingestion embedW genIdW 0 emptyStore 0 "alpha beta gamma" [] 2
      (by decide) (by decide) (by decide)⟩

lemma scoreLE_trans (a b c : String × ℚ) (h1 : scoreLE a b = true)
    (h2 : scoreLE b c = true) : scoreLE a c = true := by
  unfold scoreLE at h1 h2 ⊢
  rw [decide_eq_true_iff] at h1 h2 ⊢
  exact le_trans h2 h1

lemma scoreLE_total (a b : String × ℚ) :
    (scoreLE a b || scoreLE b a) = true := by
  unfold scoreLE
  rw [Bool.or_eq_true, decide_eq_true_iff, decide_eq_true_iff]
  exact le_total b.2 a.2

lemma mkScores_ok (sim : List ℚ → List ℚ → ℚ) (qe : List ℚ) :
    ∀ (embs : List (List ℚ)) (ids : List String) (i : ℕ),
      embs.length = ids.length → (∀ id ∈ ids, id ≠ "") →
      mkScores sim qe embs ids i =
        Except.ok (List.zipWith (fun e id => (id, sim qe e)) embs ids) := by
  intro embs
  induction embs with
  | nil =>
      intro ids i hlen _
      cases ids with
      | nil => rfl
      | cons id rest => simp at hlen
  | cons e es ih =>
      intro ids i hlen hne
      cases ids with
      | nil => simp at hlen
      | cons id rest =>
          unfold mkScores
          rw [if_neg (hne id (List.mem_cons_self id rest))]
          rw [ih rest (i + 1) (by simpa using hlen)
            (fun x hx => hne x (List.mem_cons_of_mem id hx))]
          rfl

lemma zipWith_fst (sim : List ℚ → List ℚ → ℚ) (qe : List ℚ) :
    ∀ (embs : List (List ℚ)) (ids : List String),
      embs.length = ids.length →
      (List.zipWith (fun e id => (id, sim qe e)) embs ids).map Prod.fst =
        ids := by
  intro embs
  induction embs with
  | nil =>
      intro ids hlen
      cases ids with
      | nil => rfl
      | cons id rest => simp at hlen
  | cons e es ih =>
      intro ids hlen
      cases ids with
      | nil => simp at hlen
      | cons id rest =>
          rw [List.zipWith_cons_cons, List.map_cons,
            ih rest (by simpa using hlen)]

lemma projectResults_ok (s : InMemoryVectorStore) :
    ∀ lst : List (String × ℚ),
      (∀ e ∈ lst, ∃ doc, mapGet s.documents e.1 = some doc) →
      ∃ out, projectResults s lst = Except.ok out ∧
        out.length = lst.length ∧
        ∀ (p : ℕ) (a : SearchResult), out[p]? = some a →
          ∃ e : String × ℚ, lst[p]? = some e ∧
            ∃ doc, mapGet s.documents e.1 = some doc ∧
              a = ⟨doc.id, doc.content, e.2, doc.metadata⟩ := by
  intro lst
  induction lst with
  | nil =>
      intro _
      refine ⟨[], rfl, rfl, ?_⟩
      intro p a h
      rw [List.getElem?_nil] at h
      cases h
  | cons e rest ih =>
      intro hall
      obtain ⟨doc, hdoc⟩ := hall e (List.mem_cons_self e rest)
      obtain ⟨out, hout, hlen, hfacts⟩ :=
        ih (fun x hx => hall x (List.mem_cons_of_mem e hx))
      refine ⟨⟨doc.id, doc.content, e.2, doc.metadata⟩ :: out, ?_, ?_, ?_⟩
      · unfold projectResults
        rw [hdoc, hout]
      · rw [List.length_cons, List.length_cons, hlen]
      · intro p a h
        cases p with
        | zero =>
            rw [List.getElem?_cons_zero] at h
            rw [List.getElem?_cons_zero]
            refine ⟨e, rfl, doc, hdoc, ?_⟩
            injection h with h2
            exact h2.symm
        | succ p2 =>
            rw [List.getElem?_cons_succ] at h
            obtain ⟨e2, he2, doc2, hdoc2, ha⟩ := hfacts p2 a h
            rw [List.getElem?_cons_succ]
            exact ⟨e2, he2, doc2, hdoc2, ha⟩

lemma pair_sublist_of_getElem {α : Type} :
    ∀ (l : List α) (i j : ℕ) (a b : α), i < j → l[i]? = some a →
      l[j]? = some b → List.Sublist [a, b] l := by
  intro l
  induction l with
  | nil =>
      intro i j a b _ hi _
      rw [List.getElem?_nil] at hi
      cases hi
  | cons x xs ih =>
      intro i j a b hij hi hj
      cases i with
      | zero =>
          rw [List.getElem?_cons_zero] at hi
          cases j with
          | zero => omega
          | succ j2 =>
              rw [List.getElem?_cons_succ] at hj
              have hb : b ∈ xs := List.mem_iff_getElem?.mpr ⟨j2, hj⟩
              injection hi with hxa
              subst hxa
              exact List.Sublist.cons₂ x (List.singleton_sublist.mpr hb)
      | succ i2 =>
          cases j with
          | zero => omega
          | succ j2 =>
              rw [List.getElem?_cons_succ] at hi hj
              exact List.Sublist.cons x (ih i2 j2 a b (by omega) hi hj)

lemma indexOf_lt_of_pair_sublist {α : Type} [DecidableEq α] :
    ∀ (l : List α) (x y : α), List.Sublist [x, y] l → l.Nodup →
      List.indexOf x l < List.indexOf y l := by
  intro l
  induction l with
  | nil =>
      intro x y hsub _
      cases (List.sublist_nil.mp hsub)
  | cons h t ih =>
      intro x y hsub hnd
      have hnd2 := List.nodup_cons.mp hnd
      cases hsub with
      | cons _ htail =>
          have hx : x ∈ t := htail.subset (by simp)
          have hy : y ∈ t := htail.subset (by simp)
          have hhx : h ≠ x := fun he => hnd2.1 (he ▸ hx)
          have hhy : h ≠ y := fun he => hnd2.1 (he ▸ hy)
          rw [List.indexOf_cons_ne _ hhx, List.indexOf_cons_ne _ hhy]
          exact Nat.succ_lt_succ (ih x y htail hnd2.2)
      | cons₂ _ htail =>
          have hy : y ∈ t := List.singleton_sublist.mp htail
          rw [List.indexOf_cons_self]
          rw [List.indexOf_cons_ne _ (fun he => hnd2.1 (by rw [he]; exact hy))]
          exact Nat.succ_pos _

lemma indexOf_of_getElem {α : Type} [DecidableEq α] (l : List α)
    (hnd : l.Nodup) (p : ℕ) (a : α) (h : l[p]? = some a) :
    List.indexOf a l = p := by
  obtain ⟨hp, hval⟩ := List.getElem?_eq_some.mp h
  have hmem : a ∈ l := List.mem_iff_getElem?.mpr ⟨p, h⟩
  have hidx : List.indexOf a l < l.length :=
    List.indexOf_lt_length.mpr hmem
  have heq : l[List.indexOf a l] = l[p] := by
    rw [List.getElem_indexOf hidx, hval]
  exact (hnd.getElem_inj_iff).mp heq

lemma indexOf_map_fst {α β : Type} [DecidableEq α] [DecidableEq β]
    (f : α → β) :
    ∀ (l : List α), (l.map f).Nodup → ∀ a ∈ l,
      List.indexOf (f a) (l.map f) = List.indexOf a l := by
  intro l
  induction l with
  | nil => intro _ a ha; cases ha
  | cons x xs ih =>
      intro hnd a ha
      rw [List.map_cons] at hnd
      by_cases hxa : x = a
      · subst hxa
        rw [List.map_cons, List.indexOf_cons_self, List.indexOf_cons_self]
      · have ha2 : a ∈ xs := by
          rcases List.mem_cons.mp ha with he | hm
          · exact absurd he.symm hxa
          · exact hm
        have hfxa : f x ≠ f a := fun he =>
          (List.nodup_cons.mp hnd).1 (he ▸ List.mem_map_of_mem f ha2)
        rw [List.map_cons, List.indexOf_cons_ne _ hfxa,
          List.indexOf_cons_ne _ hxa,
          ih (List.nodup_cons.mp hnd).2 a ha2]

lemma getElem_lt_of_pair_sublist {α : Type} [DecidableEq α] (l : List α)
    (x y : α) (hsub : List.Sublist [x, y] l) (hnd : l.Nodup) (p q : ℕ)
    (hp : l[p]? = some x) (hq : l[q]? = some y) : p < q := by
  have h1 := indexOf_lt_of_pair_sublist l x y hsub hnd
  rw [indexOf_of_getElem l hnd p x hp,
    indexOf_of_getElem l hnd q y hq] at h1
  exact h1

lemma getElem_nodup_inj {α : Type} [DecidableEq α] (l : List α)
    (hnd : l.Nodup) (p q : ℕ) (a : α) (hp : l[p]? = some a)
    (hq : l[q]? = some a) : p = q := by
  rw [← indexOf_of_getElem l hnd p a hp, ← indexOf_of_getElem l hnd q a hq]

/-- C3: `search(query, topK)` on a consistent store returns exactly
`min(topK, size)` results as `{id, content, score, metadata}` projections of
the stored documents (no embedding in the result type), sorted by
non-increasing score, and — the sort being the stable
`Array.prototype.sort` — equal-score results keep the insertion order of
their documents in the index. -/
theorem search_ranking (embed : String → Except String (List ℚ))
    (sim : List ℚ → List ℚ → ℚ) (s : InMemoryVectorStore) (query : String)
    (topK : ℕ) (qe : List ℚ) (hC : Consistent s)
    (hids : ∀ id ∈ s.indexIds, id ≠ "")
    (hq : embed query = Except.ok qe) :
    ∃ res : List SearchResult,
      InMemoryVectorStore.search embed sim s query topK = Except.ok res ∧
      res.length = min topK s.size ∧
      List.Pairwise (fun a b : SearchResult => b.score ≤ a.score) res ∧
      (∀ (p : ℕ) (a : SearchResult), res[p]? = some a → ∃ doc : Document,
        mapGet s.documents a.id = some doc ∧
        a = ⟨doc.id, doc.content, sim qe doc.embedding, doc.metadata⟩) ∧
      (∀ (p q2 : ℕ) (a b : SearchResult), p < q2 → res[p]? = some a →
        res[q2]? = some b → a.score = b.score →
        List.indexOf a.id s.indexIds < List.indexOf b.id s.indexIds) := by
  obtain ⟨h1, h2, h3, h4⟩ := hC
  by_cases hsz : s.size = 0
  · refine ⟨[], ?_, ?_, List.Pairwise.nil, ?_, ?_⟩
    · unfold InMemoryVectorStore.search
      rw [if_pos hsz]
    · rw [hsz]
      simp
    · intro p a h
      rw [List.getElem?_nil] at h
      cases h
    · intro p q2 a b _ hp
      rw [List.getElem?_nil] at hp
      cases hp
  · have hlenid : s.indexIds.length = s.documents.length := by
      rw [h1, List.length_map]
    have hlenemb : s.indexEmbeddings.length = s.indexIds.length := by
      rw [h2, h1, List.length_map, List.length_map]
    set scored : List (String × ℚ) :=
      List.zipWith (fun e id => (id, sim qe e)) s.indexEmbeddings
        s.indexIds with hscored
    have hmk : mkScores sim qe s.indexEmbeddings s.indexIds 0 =
        Except.ok scored :=
      mkScores_ok sim qe s.indexEmbeddings s.indexIds 0 hlenemb hids
    have hscoredlen : scored.length = s.indexIds.length := by
      rw [hscored, List.length_zipWith, hlenemb]
      exact Nat.min_self _
    have hfst : scored.map Prod.fst = s.indexIds :=
      zipWith_fst sim qe s.indexEmbeddings s.indexIds hlenemb
    have hndids : s.indexIds.Nodup := by rw [h1]; exact h3
    have hndscored : scored.Nodup :=
      List.Nodup.of_map Prod.fst (by rw [hfst]; exact hndids)
    have hperm : List.Perm (scored.mergeSort scoreLE) scored :=
      List.mergeSort_perm scored scoreLE
    have hndsorted : (scored.mergeSort scoreLE).Nodup :=
      hperm.nodup_iff.mpr hndscored
    have hps : (scored.mergeSort scoreLE).Pairwise
        (fun a b => scoreLE a b = true) :=
      List.sorted_mergeSort scoreLE_trans scoreLE_total scored
    have hmem_doc : ∀ e ∈ scored, ∃ doc : Document,
        mapGet s.documents e.1 = some doc ∧ doc.id = e.1 ∧
        e.2 = sim qe doc.embedding := by
      intro e he
      obtain ⟨k, hk⟩ := List.mem_iff_getElem?.mp he
      rw [hscored, List.getElem?_zipWith] at hk
      cases hek : s.indexEmbeddings[k]? with
      | none => rw [hek] at hk; cases hk
      | some emb =>
          cases hik : s.indexIds[k]? with
          | none => rw [hek, hik] at hk; cases hk
          | some id =>
              rw [hek, hik] at hk
              have he2 : e = (id, sim qe emb) := by
                injection hk with hk2
                exact hk2.symm
              have hkk : (s.documents.map Prod.fst)[k]? = some id := by
                rw [← h1]
                exact hik
              have hmemid : id ∈ s.documents.map Prod.fst :=
                List.mem_iff_getElem?.mpr ⟨k, hkk⟩
              have hsome : (mapGet s.documents id).isSome = true :=
                (mapGet_isSome_iff s.documents id).mpr hmemid
              rw [Option.isSome_iff_exists] at hsome
              obtain ⟨doc, hdoc⟩ := hsome
              have hpos := mapGet_position s.documents id doc h3 hdoc
              have hidx : List.indexOf id (s.documents.map Prod.fst) = k :=
                indexOf_of_getElem (s.documents.map Prod.fst) h3 k id hkk
              rw [hidx] at hpos
              have hembk : s.indexEmbeddings[k]? =
                  some doc.embedding := by
                rw [h2, List.getElem?_map, hpos.2]
                rfl
              have hembeq : emb = doc.embedding := by
                rw [hek] at hembk
                injection hembk
              have hdocid : doc.id = id :=
                h4 (id, doc) (mapGet_mem s.documents id doc hdoc)
              refine ⟨doc, ?_, ?_, ?_⟩
              · rw [he2]
                exact hdoc
              · rw [he2, hdocid]
              · rw [he2, hembeq]
    have hpresub : List.Sublist
        (List.take topK (scored.mergeSort scoreLE))
        (scored.mergeSort scoreLE) := List.take_sublist topK _
    have hmem_pre : ∀ e ∈ List.take topK (scored.mergeSort scoreLE),
        ∃ doc, mapGet s.documents e.1 = some doc := by
      intro e he
      obtain ⟨doc, hdoc, _, _⟩ := hmem_doc e
        (List.mem_mergeSort.mp (hpresub.subset he))
      exact ⟨doc, hdoc⟩
    obtain ⟨out, hout, hlenout, hfacts⟩ :=
      projectResults_ok s (List.take topK (scored.mergeSort scoreLE))
        hmem_pre
    have hsearch : InMemoryVectorStore.search embed sim s query topK =
        Except.ok out := by
      unfold InMemoryVectorStore.search
      rw [if_neg hsz, hq]
      simp only [hmk]
      exact hout

    have hentry : ∀ (p : ℕ) (a : SearchResult), out[p]? = some a →
        ∃ e : String × ℚ,
          (List.take topK (scored.mergeSort scoreLE))[p]? = some e ∧
          ∃ doc : Document, mapGet s.documents e.1 = some doc ∧
            doc.id = e.1 ∧ e.2 = sim qe doc.embedding ∧
            a = ⟨doc.id, doc.content, e.2, doc.metadata⟩ := by
      intro p a h
      obtain ⟨e, he, doc, hdoc, ha⟩ := hfacts p a h
      have hescored : e ∈ scored := List.mem_mergeSort.mp
        (hpresub.subset (List.mem_iff_getElem?.mpr ⟨p, he⟩))
      obtain ⟨doc2, hdoc2, hid2, hsim2⟩ := hmem_doc e hescored
      have hdd : doc = doc2 := by
        rw [hdoc] at hdoc2
        exact Option.some_inj.mp hdoc2
      subst hdd
      exact ⟨e, he, doc, hdoc, hid2, hsim2, ha⟩
    refine ⟨out, hsearch, ?_, ?_, ?_, ?_⟩
    · rw [hlenout, List.length_take, List.length_mergeSort, hscoredlen,
        hlenid]
      rfl
    · rw [List.pairwise_iff_getElem]
      intro i j hi hj hij
      obtain ⟨ei, hei, doci, _, _, hsimi, hai⟩ := hentry i out[i]
        (List.getElem?_eq_getElem hi)
      obtain ⟨ej, hej, docj, _, _, hsimj, haj⟩ := hentry j out[j]
        (List.getElem?_eq_getElem hj)
      have hpair : (List.take topK (scored.mergeSort scoreLE)).Pairwise
          (fun a b => scoreLE a b = true) :=
        List.Pairwise.sublist hpresub hps
      rw [List.pairwise_iff_getElem] at hpair
      have hip := List.getElem?_eq_some.mp hei
      have hjp := List.getElem?_eq_some.mp hej
      obtain ⟨hi2, hival⟩ := hip
      obtain ⟨hj2, hjval⟩ := hjp
      have hrel := hpair i j hi2 hj2 hij
      rw [hival, hjval] at hrel
      unfold scoreLE at hrel
      rw [decide_eq_true_iff] at hrel
      rw [hai, haj]
      show ej.2 ≤ ei.2
      exact hrel
    · intro p a h
      obtain ⟨e, _, doc, hdoc, hid, hsim, ha⟩ := hentry p a h
      refine ⟨doc, ?_, ?_⟩
      · rw [ha]
        show mapGet s.documents doc.id = some doc
        rw [hid]
        exact hdoc
      · rw [ha, hsim]
    · intro p q2 a b hpq hp hq2
      intro hscore
      obtain ⟨ea, hea, doca, hdoca, hida, hsima, haa⟩ := hentry p a hp
      obtain ⟨eb, heb, docb, hdocb, hidb, hsimb, hab⟩ := hentry q2 b hq2
      rw [List.getElem?_take] at hea heb
      by_cases hptop : p < topK
      case neg => rw [if_neg hptop] at hea; cases hea
      rw [if_pos hptop] at hea
      by_cases hqtop : q2 < topK
      case neg => rw [if_neg hqtop] at heb; cases heb
      rw [if_pos hqtop] at heb
      have heamem : ea ∈ scored := List.mem_mergeSort.mp
        (List.mem_iff_getElem?.mpr ⟨p, hea⟩)
      have hebmem : eb ∈ scored := List.mem_mergeSort.mp
        (List.mem_iff_getElem?.mpr ⟨q2, heb⟩)
      have hscoreeq : ea.2 = eb.2 := by
        have h5 : a.score = ea.2 := by rw [haa]
        have h6 : b.score = eb.2 := by rw [hab]
        rw [← h5, ← h6, hscore]
      have haid : a.id = ea.1 := by rw [haa]; show doca.id = ea.1; exact hida
      have hbid : b.id = eb.1 := by rw [hab]; show docb.id = eb.1; exact hidb
      have hne2 : ea ≠ eb := by
        intro he
        have hpe := getElem_nodup_inj _ hndsorted p q2 ea hea
          (by rw [he]; exact heb)
        omega
      obtain ⟨ka, hka⟩ := List.mem_iff_getElem?.mp heamem
      obtain ⟨kb, hkb⟩ := List.mem_iff_getElem?.mp hebmem
      have hfa : s.indexIds[ka]? = some ea.1 := by
        rw [← hfst, List.getElem?_map, hka]
        rfl
      have hfb : s.indexIds[kb]? = some eb.1 := by
        rw [← hfst, List.getElem?_map, hkb]
        rfl
      have hia : List.indexOf ea.1 s.indexIds = ka :=
        indexOf_of_getElem _ hndids ka _ hfa
      have hib : List.indexOf eb.1 s.indexIds = kb :=
        indexOf_of_getElem _ hndids kb _ hfb
      rw [haid, hbid, hia, hib]
      rcases Nat.lt_trichotomy ka kb with hlt | heq | hgt
      · exact hlt
      · rw [heq] at hka
        rw [hka] at hkb
        injection hkb with hkk
        exact absurd hkk hne2
      · have hpair2 : List.Sublist [eb, ea] scored :=
          pair_sublist_of_getElem scored kb ka eb ea hgt hkb hka
        have hle : scoreLE eb ea = true := by
          unfold scoreLE
          rw [decide_eq_true_iff, hscoreeq]
        have hsorted2 : List.Sublist [eb, ea]
            (scored.mergeSort scoreLE) :=
          List.pair_sublist_mergeSort scoreLE_trans scoreLE_total hle
            hpair2
        have hqp := getElem_lt_of_pair_sublist _ eb ea hsorted2 hndsorted
          q2 p heb hea
        omega

/-- A consistent store holding two documents. -/
def twoDocStore : InMemoryVectorStore :=
  ⟨[("doc_a", ⟨"doc_a", "alpha text", [1, 2], [], 0⟩),
    ("doc_b", ⟨"doc_b", "beta text", [3, 4], [], 1⟩)],
   [[1, 2], [3, 4]], ["doc_a", "doc_b"]⟩

theorem search_ranking_witness :
    (Consistent twoDocStore ∧ (∀ id ∈ twoDocStore.indexIds, id ≠ "") ∧
      embedW "query" = Except.ok [1, 2]) ∧
    (∃ res : List SearchResult,
      InMemoryVectorStore.search embedW simZero twoDocStore "query" 5 =
        Except.ok res ∧
      res.length = min 5 twoDocStore.size ∧
      List.Pairwise (fun a b : SearchResult => b.score ≤ a.score) res ∧
      (∀ (p : ℕ) (a : SearchResult), res[p]? = some a → ∃ doc : Document,
        mapGet twoDocStore.documents a.id = some doc ∧
        a = ⟨doc.id, doc.content, simZero [1, 2] doc.embedding,
          doc.metadata⟩) ∧
      (∀ (p q2 : ℕ) (a b : SearchResult), p < q2 → res[p]? = some a →
        res[q2]? = some b → a.score = b.score →
        List.indexOf a.id twoDocStore.indexIds <
          List.indexOf b.id twoDocStore.indexIds)) :=
  ⟨⟨by decide, by decide, rfl⟩,
    search_ranking embedW simZero twoDocStore "query" 5 [1, 2] (by decide)
      (by decide) rfl⟩
